import Mathlib

/-!
# TCF container format: embedding of `tcf.c` and verification of its specification

Bytes are natural numbers below 256, C strings are lists of non-zero bytes,
`uint16_t`/`uint32_t`/`size_t` values are natural numbers reduced modulo
`2^16`/`2^32`/`2^64` wherever the C code can wrap.  The model follows the POSIX
branch of the source on a little-endian host with a 64-bit `size_t`.
-/

namespace TCF

/-! ## Constants of `tcf.h` and `tcf.c` -/

@[reducible] def TCF_OK : Int := 0
@[reducible] def TCF_ERR_IO : Int := -1
@[reducible] def TCF_ERR_FORMAT : Int := -2
@[reducible] def TCF_ERR_CRC : Int := -3
@[reducible] def TCF_ERR_MEMORY : Int := -4

/-- The three bytes of `TCF_MAGIC`, "TCF". -/
@[reducible] def TCF_MAGIC : List Nat := [84, 67, 70]
@[reducible] def VERSION : Nat := 1
@[reducible] def ENDIANNESS : Nat := 0
@[reducible] def SHIFT_BITS : Nat := 2
@[reducible] def BUFFER_SIZE : Nat := 8192

/-! ## `crc32` -/

/-- One round of the inner `for (j = 0; j < 8; j++)` loop of `crc32`:
`mask = -(crc & 1); crc = (crc >> 1) ^ (0xEDB88320 & mask)`, the negation
taken in `uint32_t`. -/
def crc32_round (crc : Nat) : Nat :=
  let mask := (2 ^ 32 - (crc &&& 1)) % 2 ^ 32
  (crc >>> 1) ^^^ (0xEDB88320 &&& mask)

/-- One round of the outer loop of `crc32`: `crc ^= data[i]` followed by the
eight inner rounds. -/
def crc32_step (crc : Nat) (b : Nat) : Nat :=
  crc32_round^[8] (crc ^^^ b)

/-- The function `crc32(data, len)` on the `len` bytes `data`: start from
`0xFFFFFFFF`, fold the bytes in, return `~crc`. -/
def crc32 (data : List Nat) : Nat :=
  (data.foldl crc32_step 0xFFFFFFFF) ^^^ 0xFFFFFFFF

/-! ## Cipher tables and the entry catalog: the file-scope state of `tcf.c` -/

/-- The struct `tcf_entry`. -/
structure tcf_entry where
  path : List Nat
  offset : Nat
  size : Nat
deriving DecidableEq, Repr

/-- The file-scope variables of `tcf.c`.  The array `entries` with its
`entry_count` used slots is the list `entries`. -/
structure Globals where
  shift_table : List Nat
  unshift_table : List Nat
  tables_initialized : Nat
  entries : List tcf_entry
  entry_cap : Nat
deriving DecidableEq, Repr

/-- The state at program start: static storage is zero-initialised. -/
def Globals.start : Globals where
  shift_table := List.replicate 256 0
  unshift_table := List.replicate 256 0
  tables_initialized := 0
  entries := []
  entry_cap := 0

/-- The value stored in `shift_table[i]`. -/
def shift_value (i : Nat) : Nat :=
  (((i <<< SHIFT_BITS) &&& 0xFF) ||| (i >>> (8 - SHIFT_BITS))) % 256

/-- The value stored in `unshift_table[i]` (the cast to `uint8_t` keeps the
low eight bits). -/
def unshift_value (i : Nat) : Nat :=
  ((i >>> SHIFT_BITS) ||| (i <<< (8 - SHIFT_BITS))) % 256

/-- The loop body of `init_tables` for index `i`. -/
def init_tables_body (t : List Nat × List Nat) (i : Nat) : List Nat × List Nat :=
  (t.1.set i (shift_value i), t.2.set i (unshift_value i))

/-- The function `init_tables`. -/
def init_tables (g : Globals) : Globals :=
  if g.tables_initialized ≠ 0 then g
  else
    let t := (List.range 256).foldl init_tables_body (g.shift_table, g.unshift_table)
    { g with shift_table := t.1, unshift_table := t.2, tables_initialized := 1 }

/-- Table lookup `table[b]`. -/
def lookup (table : List Nat) (b : Nat) : Nat := table.getD b 0

/-! ## Reference definitions taken from the specification -/

/-- Specification: the byte `b` rotated left by `k` bits within 8 bits; bit
`i` of the result is bit `i - k` (modulo 8) of `b`. -/
def rotl8_spec (b k : Nat) : Nat :=
  ((List.range 8).map fun i => if b.testBit ((i + 8 - k % 8) % 8) then 2 ^ i else 0).sum

/-- Specification: the byte `b` rotated right by `k` bits within 8 bits; bit
`i` of the result is bit `i + k` (modulo 8) of `b`. -/
def rotr8_spec (b k : Nat) : Nat :=
  ((List.range 8).map fun i => if b.testBit ((i + k) % 8) then 2 ^ i else 0).sum

/-- Specification: the bits of a byte in the order the reflected CRC consumes
them, least significant first. -/
def byte_bits_spec (b : Nat) : List Bool :=
  (List.range 8).map b.testBit

/-- Specification: one message bit fed into the reflected CRC-32 register with
polynomial `0xEDB88320`: the register is shifted right by one, and the
polynomial is xored in when the bit shifted out differs from the message bit. -/
def crc32_spec_bit (crc : Nat) (bit : Bool) : Nat :=
  if (decide (crc % 2 = 1) != bit) then (crc / 2) ^^^ 0xEDB88320 else crc / 2

/-- Specification: the reflected CRC-32 of a byte sequence, bit by bit: the
register starts at `0xFFFFFFFF`, every message bit is fed in, the result is
complemented. -/
def crc32_spec (data : List Nat) : Nat :=
  0xFFFFFFFF - (data.flatMap byte_bits_spec).foldl crc32_spec_bit 0xFFFFFFFF

/-- Specification: the little-endian value of the four bytes of `h` at
offset `i`. -/
def le32_spec (h : List Nat) (i : Nat) : Nat :=
  h.getD i 0 + 256 * h.getD (i + 1) 0 + 256 ^ 2 * h.getD (i + 2) 0 + 256 ^ 3 * h.getD (i + 3) 0

/-- Specification: the `n` bytes of `v` in little-endian order. -/
def le_bytes_spec (n v : Nat) : List Nat :=
  (List.range n).map fun i => v / 256 ^ i % 256

/-- The tables hold the rotations whenever they are marked initialised, and
have their 256 slots. -/
def TablesOK (g : Globals) : Prop :=
  g.shift_table.length = 256 ∧ g.unshift_table.length = 256 ∧
  (g.tables_initialized ≠ 0 →
    g.shift_table = (List.range 256).map shift_value ∧
    g.unshift_table = (List.range 256).map unshift_value)

/-- The byte sequence `data` with bit `k` flipped, bit `k` being bit `k % 8`
of byte `k / 8`. -/
def flip_bit (data : List Nat) (k : Nat) : List Nat :=
  data.set (k / 8) (data.getD (k / 8) 0 ^^^ 2 ^ (k % 8))

/-! ## The operating system as seen by `tcf.c`

The program reaches the file system and the heap only through libc calls.
Their answers are the fields of `OS`; nothing is assumed about them beyond
what each theorem states.  What is read (`opendir`, `stat`, `fopen(_, "rb")`)
stays the same during a run; what is written is recorded as a list of events,
and whether a file can be opened for writing may depend on the events so far. -/

/-- What `stat` reports about a path: `S_ISDIR`, `S_ISREG` with `st_size`, or
anything else. -/
inductive Stat where
  | dir : Stat
  | reg (st_size : Nat) : Stat
  | other : Stat
deriving DecidableEq, Repr

/-- A call that changes the file system during extraction. -/
inductive Event where
  /-- The call `MKDIR(path)`; its result is ignored by the program. -/
  | mkdir (path : List Nat) : Event
  /-- A file opened by `fopen(path, "wb")`, the bytes written to it, `fclose`. -/
  | file (path : List Nat) (content : List Nat) : Event
deriving DecidableEq, Repr

/-- The answers of the environment. -/
structure OS where
  /-- The entries `readdir` yields for `opendir(path)`, in order; `none` when
  `opendir` fails. -/
  opendir : List Nat → Option (List (List Nat))
  /-- The result of `stat(path)`; `none` when it fails. -/
  stat : List Nat → Option Stat
  /-- The bytes `fread` delivers from `fopen(path, "rb")` until end of file;
  `none` when `fopen` fails. -/
  fopen_rb : List Nat → Option (List Nat)
  /-- Whether `fopen(path, "wb")` succeeds after the listed events. -/
  fopen_wb : List Event → List Nat → Bool
  /-- Whether `malloc`/`realloc` of that many bytes succeeds. -/
  alloc : Nat → Bool
  /-- The byte found at index `i` of a fresh, unwritten `malloc` block. -/
  garbage : Nat → Nat

/-- Ways a run ends without the function returning. -/
inductive Abort where
  /-- The call `exit(EXIT_FAILURE)` of `add_entry`. -/
  | exit_failure : Abort
  /-- A read of `payload[k]` with `k` outside the allocated block. -/
  | out_of_bounds : Abort
  /-- The model ran out of fuel. -/
  | out_of_fuel : Abort
deriving DecidableEq, Repr

deriving instance DecidableEq for Except

/-- The result of `snprintf(buf, 1024, ...)`: at most 1023 characters are kept. -/
def snprintf (s : List Nat) : List Nat := s.take 1023

/-- The C string held in a buffer: the bytes before the first NUL. -/
def cstr (buf : List Nat) : List Nat := buf.takeWhile (· ≠ 0)

/-- Whether `strstr(path, "..")` finds a match. -/
def has_dotdot : List Nat → Bool
  | 46 :: 46 :: _ => true
  | _ :: rest => has_dotdot rest
  | [] => false

/-- The two bytes of a `uint16_t` in memory. -/
def put_u16 (v : Nat) : List Nat := [v % 256, v / 256 % 256]

/-- The four bytes of a `uint32_t` in memory. -/
def put_u32 (v : Nat) : List Nat :=
  [v % 256, v / 256 % 256, v / 65536 % 256, v / 16777216 % 256]

/-- The expression `h[i] | h[i+1] << 8 | h[i+2] << 16 | h[i+3] << 24` as a
`uint32_t`. -/
def get_u32 (h : List Nat) (i : Nat) : Nat :=
  (h.getD i 0 ||| h.getD (i + 1) 0 <<< 8 ||| h.getD (i + 2) 0 <<< 16 |||
    h.getD (i + 3) 0 <<< 24) % 2 ^ 32

/-- The function `read_u16` on the unread rest of the stream: the value and
the rest after the `fread`. -/
def read_u16 (s : List Nat) : Nat × List Nat :=
  let b := s.take 2
  if b.length ≠ 2 then (0, s.drop 2)
  else ((b.getD 0 0 ||| b.getD 1 0 <<< 8) % 2 ^ 16, s.drop 2)

/-- The function `read_u32` on the unread rest of the stream. -/
def read_u32 (s : List Nat) : Nat × List Nat :=
  let b := s.take 4
  if b.length ≠ 4 then (0, s.drop 4)
  else (get_u32 b 0, s.drop 4)

/-! ## `add_entry`, `ensure_dirs`, `walk_dir` -/

/-- The function `add_entry`; `sizeof(tcf_entry)` is 16. -/
def add_entry (os : OS) (g : Globals) (path : List Nat) (size : Nat) : Except Abort Globals :=
  let grow := g.entries.length = g.entry_cap
  let cap := if grow then (if g.entry_cap ≠ 0 then g.entry_cap * 2 else 64) else g.entry_cap
  if grow ∧ os.alloc (cap * 16) = false then .error .exit_failure
  else if os.alloc (path.length + 1) = false then .error .exit_failure
  else .ok { g with entries := g.entries ++ [{ path := path, offset := 0, size := size }],
                    entry_cap := cap }

/-- The function `ensure_dirs`: the return value and the paths passed to
`MKDIR`, in order.  The scan starts at index 1; on the empty string, where the
C loop starts behind the terminator, the list of calls is taken as empty. -/
def ensure_dirs (path : List Nat) : Int × List (List Nat) :=
  if path.length ≥ 1024 then (-1, [])
  else (0, ((List.range path.length).filter fun i =>
      1 ≤ i ∧ (path.getD i 0 = 47 ∨ path.getD i 0 = 92)).map fun i => path.take i)

/-- The `while ((e = readdir(d)))` loop of `walk_dir` over the entries still
to come; `recurse` is the recursive call `walk_dir(base, new_rel)`. -/
def walk_loop (os : OS) (recurse : List Nat → Globals → Except Abort Globals)
    (base rel : List Nat) : List (List Nat) → Globals → Except Abort Globals
  | [], g => .ok g
  | d_name :: more, g =>
    if d_name = [46] ∨ d_name = [46, 46] then walk_loop os recurse base rel more g
    else
      let new_rel := snprintf (rel ++ (if rel ≠ [] then [47] else []) ++ d_name)
      let full := snprintf (base ++ [47] ++ new_rel)
      match os.stat full with
      | none => walk_loop os recurse base rel more g
      | some Stat.dir =>
        match recurse new_rel g with
        | .error a => .error a
        | .ok g1 => walk_loop os recurse base rel more g1
      | some (Stat.reg st_size) =>
        match add_entry os g new_rel (st_size % 2 ^ 32) with
        | .error a => .error a
        | .ok g1 => walk_loop os recurse base rel more g1
      | some Stat.other => walk_loop os recurse base rel more g

/-- The function `walk_dir` (POSIX branch); `fuel` bounds the recursion depth. -/
def walk_dir (os : OS) : Nat → List Nat → List Nat → Globals → Except Abort Globals
  | 0, _, _, _ => .error .out_of_fuel
  | fuel + 1, base, rel, g =>
    let path := snprintf (base ++ [47] ++ rel)
    match os.opendir (if path ≠ [] then path else base) with
    | none => .ok g
    | some names => walk_loop os (walk_dir os fuel base) base rel names g

/-! ## `tcf_pack` -/

/-- The `while ((r = fread(buffer, 1, BUFFER_SIZE, in)) > 0)` loop of
`tcf_pack` on the unread rest of the source file: the bytes written. -/
def pack_chunks (table : List Nat) : Nat → List Nat → Except Abort (List Nat)
  | fuel, unread =>
    let chunk := unread.take BUFFER_SIZE
    if chunk.length = 0 then .ok []
    else
      match fuel with
      | 0 => .error .out_of_fuel
      | fuel + 1 =>
        match pack_chunks table fuel (unread.drop BUFFER_SIZE) with
        | .error a => .error a
        | .ok out => .ok (chunk.map (lookup table) ++ out)

/-- The first `for` loop of `tcf_pack` from entry `i` on, `offset` being the
running offset: whether every source could be opened, the entries with their
offsets set, and the bytes written to the output. -/
def pack_files (os : OS) (table : List Nat) (input_dir : List Nat) :
    List tcf_entry → Nat → Except Abort (Bool × List tcf_entry × List Nat)
  | [], _ => .ok (true, [], [])
  | e :: more, offset =>
    let e1 := { e with offset := offset }
    match os.fopen_rb (snprintf (input_dir ++ [47] ++ e.path)) with
    | none => .ok (false, e1 :: more, [])
    | some content =>
      match pack_chunks table content.length content with
      | .error a => .error a
      | .ok bytes =>
        match pack_files os table input_dir more ((offset + e.size) % 2 ^ 32) with
        | .error a => .error a
        | .ok (ok, es, out) => .ok (ok, e1 :: es, bytes ++ out)

/-- One index record as written by the second `for` loop of `tcf_pack`. -/
def index_record (e : tcf_entry) : List Nat :=
  let len := e.path.length % 2 ^ 16
  put_u16 len ++ e.path.take len ++ put_u32 e.offset ++ put_u32 e.size

/-- The first 14 bytes of the header built by `tcf_pack`. -/
def header14 (index_offset entry_count : Nat) : List Nat :=
  TCF_MAGIC ++ [VERSION, 0, ENDIANNESS] ++ put_u32 index_offset ++ put_u32 (entry_count % 2 ^ 32)

/-- The 18-byte header built by `tcf_pack`. -/
def make_header (index_offset entry_count : Nat) : List Nat :=
  header14 index_offset entry_count ++ put_u32 (crc32 (header14 index_offset entry_count))

/-- What `tcf_pack` leaves behind. -/
structure PackResult where
  status : Int
  globals : Globals
  /-- The bytes of the output file, `none` when it could not be opened. -/
  out : Option (List Nat)
deriving DecidableEq, Repr

/-- The function `tcf_pack`; `fuel` bounds the depth of the directory walk. -/
def tcf_pack (os : OS) (fuel : Nat) (g : Globals) (input_dir out_path : List Nat) :
    Except Abort PackResult :=
  let g1 := init_tables g
  match walk_dir os fuel input_dir [] g1 with
  | .error a => .error a
  | .ok g2 =>
    if os.fopen_wb [] out_path = false then
      .ok { status := TCF_ERR_IO, globals := g2, out := none }
    else
      match pack_files os g2.shift_table input_dir g2.entries 0 with
      | .error a => .error a
      | .ok (ok, es, payload) =>
        let g3 := { g2 with entries := es }
        if ok = false then
          .ok { status := TCF_ERR_IO, globals := g3,
                out := some (List.replicate 18 0 ++ payload) }
        else
          let index_offset := (18 + payload.length) % 2 ^ 32
          let index := (es.map index_record).flatten
          .ok { status := TCF_OK, globals := g3,
                out := some (make_header index_offset es.length ++ payload ++ index ++
                  [69, 79, 70]) }

/-! ## `tcf_extract` -/

/-- The inner `for (j = 0; j < chunk; j++)` loop of `tcf_extract` from index
`j` on: the bytes stored in `buffer[j..chunk)`.  The sum `pos + j` is a
`uint32_t`. -/
def decode_chunk (table payload : List Nat) (pos : Nat) : Nat → Nat → Except Abort (List Nat)
  | 0, _ => .ok []
  | n + 1, j =>
    match payload.get? ((pos + j) % 2 ^ 32) with
    | none => .error .out_of_bounds
    | some b =>
      match decode_chunk table payload pos n (j + 1) with
      | .error a => .error a
      | .ok out => .ok (lookup table b :: out)

/-- The `while (remaining > 0)` loop of `tcf_extract`: the bytes written to
the destination file. -/
def copy_loop (table payload : List Nat) : Nat → Nat → Nat → Except Abort (List Nat)
  | fuel, pos, remaining =>
    if remaining = 0 then .ok []
    else
      match fuel with
      | 0 => .error .out_of_fuel
      | fuel + 1 =>
        let chunk := if remaining > BUFFER_SIZE then BUFFER_SIZE else remaining
        match decode_chunk table payload pos chunk 0 with
        | .error a => .error a
        | .ok buffer =>
          match copy_loop table payload fuel ((pos + chunk) % 2 ^ 32) (remaining - chunk) with
          | .error a => .error a
          | .ok out => .ok (buffer ++ out)

/-- The `for (i = 0; i < file_count; i++)` loop of `tcf_extract` with `n`
iterations to go, `stream` the unread rest of the archive and `ev` the events
so far: the status returned and the events. -/
def extract_loop (os : OS) (table payload output_dir : List Nat) :
    Nat → List Nat → List Event → Except Abort (Int × List Event)
  | 0, _, ev => .ok (TCF_OK, ev)
  | n + 1, stream, ev =>
    let (path_len, s1) := read_u16 stream
    if os.alloc (path_len + 1) = false then .ok (TCF_ERR_MEMORY, ev)
    else
      let got := s1.take path_len
      let s2 := s1.drop path_len
      let buf := got ++ ((List.range (path_len - got.length)).map fun k =>
        os.garbage (got.length + k)) ++ [0]
      let path := cstr buf
      if has_dotdot path then extract_loop os table payload output_dir n s2 ev
      else
        let (offset, s3) := read_u32 s2
        let (size, s4) := read_u32 s3
        let full_path := snprintf (output_dir ++ [47] ++ path)
        let ev1 := ev ++ (ensure_dirs full_path).2.map Event.mkdir
        if os.fopen_wb ev1 full_path = false then .ok ( TCF_ERR_IO, ev1)
        else
          match copy_loop table payload size offset size with
          | .error a => .error a
          | .ok content =>
            extract_loop os table payload output_dir n s4 (ev1 ++ [Event.file full_path content])

/-- What `tcf_extract` leaves behind. -/
structure ExtractResult where
  status : Int
  globals : Globals
  events : List Event
deriving DecidableEq, Repr

/-- The function `tcf_extract`. -/
def tcf_extract (os : OS) (g : Globals) (tcf_path output_dir : List Nat) :
    Except Abort ExtractResult :=
  let g1 := init_tables g
  match os.fopen_rb tcf_path with
  | none => .ok { status := TCF_ERR_IO, globals := g1, events := [] }
  | some archive =>
    let header := archive.take 18
    if header.length ≠ 18 then .ok { status := TCF_ERR_FORMAT, globals := g1, events := [] }
    else if header.take 3 ≠ TCF_MAGIC then
      .ok { status := TCF_ERR_FORMAT, globals := g1, events := [] }
    else
      let index_offset := get_u32 header 6
      let file_count := get_u32 header 10
      let expected_crc := get_u32 header 14
      if crc32 (header.take 14) ≠ expected_crc then
        .ok { status := TCF_ERR_CRC, globals := g1, events := [] }
      else
        let payload_size := (index_offset + 2 ^ 64 - 18) % 2 ^ 64
        if os.alloc payload_size = false then
          .ok { status := TCF_ERR_MEMORY, globals := g1, events := [] }
        else
          let payload := (archive.drop 18).take payload_size
          if payload.length ≠ payload_size then
            .ok { status := TCF_ERR_IO, globals := g1, events := [] }
          else
            match extract_loop os g1.unshift_table payload output_dir file_count
                ((archive.drop 18).drop payload_size) [] with
            | .error a => .error a
            | .ok (status, ev) => .ok { status := status, globals := g1, events := ev }

mutual
/-- A directory tree of regular files. -/
inductive Tree where
  | file (content : List Nat) : Tree
  | dir (children : Forest) : Tree
/-- The entries of a directory, in the order `readdir` yields them. -/
inductive Forest where
  | nil : Forest
  | cons (name : List Nat) (node : Tree) (more : Forest) : Forest
end

/-- The entry called `name` of a directory. -/
def Forest.child : Forest → List Nat → Option Tree
  | Forest.nil, _ => none
  | Forest.cons n t more, name => if n = name then some t else more.child name

/-- The names of the entries of a directory. -/
def Forest.names : Forest → List (List Nat)
  | Forest.nil => []
  | Forest.cons n _ more => n :: more.names

/-- The node reached from `t` through the given path components. -/
def Tree.find : Tree → List (List Nat) → Option Tree
  | t, [] => some t
  | Tree.file _, _ :: _ => none
  | Tree.dir ch, c :: cs =>
    match ch.child c with
    | none => none
    | some t => t.find cs

/-- The node a path string names when `root` is the directory `base`: the
part after `base/` is cut at each `/`, empty components are dropped. -/
def Tree.at_path (root : Tree) (base p : List Nat) : Option Tree :=
  if (base ++ [47]).isPrefixOf p then
    root.find (((p.drop (base.length + 1)).splitOn 47).filter fun c => c ≠ [])
  else none

/-- Whether the path `p` names a node of the tree `root` mounted as `base`:
the directory `base` itself or something below it. -/
def Tree.holds (root : Tree) (base p : List Nat) : Bool :=
  p == base || (root.at_path base p).isSome

/-- The environment `os` with the directory tree `root` as the directory
`base`.  A directory's listing starts with `.` and `..`; a directory opened
with `fopen(path, "rb")` reads as empty.  The tree is read-only:
`fopen(path, "wb")` fails on each of its nodes, so that what `stat` reports
during the walk is what is read afterwards. -/
def mount (os : OS) (base : List Nat) (root : Tree) : OS :=
  { os with
    opendir := fun p =>
      match root.at_path base p with
      | some (Tree.dir ch) => some ([46] :: [46, 46] :: ch.names)
      | _ => none
    stat := fun p =>
      match root.at_path base p with
      | some (Tree.dir _) => some Stat.dir
      | some (Tree.file c) => some (Stat.reg c.length)
      | none => none
    fopen_rb := fun p =>
      match root.at_path base p with
      | some (Tree.dir _) => some []
      | some (Tree.file c) => some c
      | none => none
    fopen_wb := fun ev p => if root.holds base p then false else os.fopen_wb ev p }

/-- The path of the entry `name` in the directory with relative path `rel`. -/
def rel_join (rel name : List Nat) : List Nat :=
  rel ++ (if rel ≠ [] then [47] else []) ++ name

mutual
/-- The regular files below a node with relative path `rel`, with their
contents, in listing order. -/
def Tree.files : Tree → List Nat → List (List Nat × List Nat)
  | Tree.file c, rel => [(rel, c)]
  | Tree.dir ch, rel => ch.files rel
/-- The regular files below the entries of the directory `rel`. -/
def Forest.files : Forest → List Nat → List (List Nat × List Nat)
  | Forest.nil, _ => []
  | Forest.cons n t more, rel => t.files (rel_join rel n) ++ more.files rel
end

mutual
/-- The relative paths of all nodes at and below a node with path `rel`. -/
def Tree.paths : Tree → List Nat → List (List Nat)
  | Tree.file _, rel => [rel]
  | Tree.dir ch, rel => rel :: ch.paths rel
/-- The relative paths of all nodes below the directory `rel`. -/
def Forest.paths : Forest → List Nat → List (List Nat)
  | Forest.nil, _ => []
  | Forest.cons n t more, rel => t.paths (rel_join rel n) ++ more.paths rel
end

mutual
/-- The number of nested directory levels of a node. -/
def Tree.depth : Tree → Nat
  | Tree.file _ => 0
  | Tree.dir ch => ch.depth + 1
/-- The largest depth among the entries of a directory. -/
def Forest.depth : Forest → Nat
  | Forest.nil => 0
  | Forest.cons _ t more => max t.depth more.depth
end

/-- A file name as a directory can hold it: not empty, no `/`, no NUL, not
`.` and not `..`. -/
def valid_name (n : List Nat) : Prop :=
  n ≠ [] ∧ 47 ∉ n ∧ 0 ∉ n ∧ n ≠ [46] ∧ n ≠ [46, 46]

mutual
/-- Well-formed node: names are valid and distinct within each directory,
file contents are bytes. -/
def Tree.WF : Tree → Prop
  | Tree.file c => ∀ b ∈ c, b < 256
  | Tree.dir ch => ch.WF
/-- Well-formed directory contents. -/
def Forest.WF : Forest → Prop
  | Forest.nil => True
  | Forest.cons n t more => valid_name n ∧ more.child n = none ∧ t.WF ∧ more.WF
end

/-- The environment in which nothing can be read, every allocation succeeds
and `fopen(path, "wb")` succeeds unless `path` ends in `/`. -/
def OS.plain : OS where
  opendir := fun _ => none
  stat := fun _ => none
  fopen_rb := fun _ => none
  fopen_wb := fun _ p => p.getLast? ≠ some 47
  alloc := fun _ => true
  garbage := fun _ => 0

/-- The environment `os` with the file `path` holding `content`.  The file is
read-only: `fopen(path, "wb")` fails, so that the content stays what it is
while it is read. -/
def OS.with_file (os : OS) (path content : List Nat) : OS :=
  { os with
    fopen_rb := fun p => if p = path then some content else os.fopen_rb p
    fopen_wb := fun ev p => if p = path then false else os.fopen_wb ev p }

/-! ## The scenario of the specification -/

/-- The entries of the directory of the scenario: `a.txt` holding "hello" and
`sub/b.bin` holding the bytes 0x00, 0xFF, 0x10. -/
def scenario_top : Forest :=
  Forest.cons [97, 46, 116, 120, 116] (Tree.file [104, 101, 108, 108, 111])
    (Forest.cons [115, 117, 98]
      (Tree.dir (Forest.cons [98, 46, 98, 105, 110] (Tree.file [0, 255, 16]) Forest.nil))
      Forest.nil)

/-- The directory of the scenario. -/
def scenario_tree : Tree := Tree.dir scenario_top

/-- The environment of the scenario: the tree as the directory `in`. -/
def scenario_os : OS := mount OS.plain [105, 110] scenario_tree

/-- The archive `tcf_pack` writes in the scenario. -/
def scenario_archive : List Nat :=
  [84, 67, 70, 1, 0, 0, 26, 0, 0, 0, 2, 0, 0, 0, 156, 232, 249, 182,
   161, 149, 177, 177, 189, 0, 255, 64,
   5, 0, 97, 46, 116, 120, 116, 0, 0, 0, 0, 5, 0, 0, 0,
   9, 0, 115, 117, 98, 47, 98, 46, 98, 105, 110, 5, 0, 0, 0, 3, 0, 0, 0,
   69, 79, 70]

/-- What `tcf_pack` leaves behind in the scenario. -/
def scenario_packed : PackResult :=
  { status := TCF_OK
    globals := { init_tables Globals.start with
      entries := [{ path := [97, 46, 116, 120, 116], offset := 0, size := 5 },
                  { path := [115, 117, 98, 47, 98, 46, 98, 105, 110], offset := 5, size := 3 }]
      entry_cap := 64 }
    out := some scenario_archive }

/-! ## Descriptions used in the round-trip statements -/

/-- The catalog entry `add_entry` makes for a regular file. -/
def entry_of (pc : List Nat × List Nat) : tcf_entry :=
  { path := pc.1, offset := 0, size := pc.2.length % 2 ^ 32 }

/-- The entries with the offsets the first loop of `tcf_pack` assigns,
starting from `offset`. -/
def with_offsets : List tcf_entry → Nat → List tcf_entry
  | [], _ => []
  | e :: more, offset =>
    { e with offset := offset } :: with_offsets more ((offset + e.size) % 2 ^ 32)

/-- The relative path made of the given components. -/
def rel_of (comps : List (List Nat)) : List Nat := [47].intercalate comps

/-- The payload bytes of the files `fs`: every content through `table`. -/
def payload_of (table : List Nat) (fs : List (List Nat × List Nat)) : List Nat :=
  (fs.map fun pc => pc.2.map (lookup table)).flatten

/-- The state `g1` is `g` with the entries `es` appended to the catalog and
the cipher tables untouched. -/
def Globals.extends_by (g g1 : Globals) (es : List tcf_entry) : Prop :=
  g1.shift_table = g.shift_table ∧ g1.unshift_table = g.unshift_table ∧
  g1.tables_initialized = g.tables_initialized ∧ g1.entries = g.entries ++ es

/-- The status and the events of a run of `tcf_extract`. -/
def ExtractResult.outcome (r : ExtractResult) : Int × List Event := (r.status, r.events)

/-- The status, the catalog and the output file of a run of `tcf_pack`. -/
def PackResult.outcome (r : PackResult) : Int × List tcf_entry × Option (List Nat) :=
  (r.status, r.globals.entries, r.out)

/-! ## Concrete inputs -/

/-- A header-valid archive with a one-byte payload (the encoding of "A") and
two index records: `../../etc/passwd` (offset 0, size 1), then `ok` (offset 0,
size 1). -/
def traversal_archive : List Nat :=
  make_header 19 2 ++ [5] ++
    index_record { path := [46, 46, 47, 46, 46, 47, 101, 116, 99, 47, 112, 97, 115, 115, 119, 100],
                   offset := 0, size := 1 } ++
    index_record { path := [111, 107], offset := 0, size := 1 } ++ [69, 79, 70]

/-- The archive `traversal_archive` without its unsafe record. -/
def safe_archive : List Nat :=
  make_header 19 1 ++ [5] ++ index_record { path := [111, 107], offset := 0, size := 1 } ++
    [69, 79, 70]

/-! ## Concrete archives with a damaged or hostile index -/

/-- A header-valid archive with a one-byte payload whose single index record,
`ok` at offset 0, ends after the offset field: the size field and the footer
are missing. -/
def truncated_archive : List Nat :=
  make_header 19 1 ++ [5] ++ put_u16 2 ++ [111, 107] ++ put_u32 0

/-- The environment `OS.plain` in which fresh allocations hold the byte `x`. -/
def stale_os : OS := { OS.plain with garbage := fun _ => 120 }

/-- A header-valid archive with a one-byte payload (the encoding of "A") and
one index record: `ok` at offset 1 with size 1. -/
def overrun_archive : List Nat :=
  make_header 19 1 ++ [5] ++ index_record { path := [111, 107], offset := 1, size := 1 } ++
    [69, 79, 70]

/-- Header, one-byte payload and two index records: `..` (offset bytes 20, 0,
120, 121, size 122), then `b` (offset 0, size 0).  No footer yet. -/
def lagging_archive : List Nat :=
  make_header 19 2 ++ [5] ++
    index_record { path := [46, 46], offset := 20 + 120 * 65536 + 121 * 16777216, size := 122 } ++
    index_record { path := [98], offset := 0, size := 0 }

/-! ## Descriptions used in the statements about the catalog -/

/-- A catalog entry as `add_entry` leaves it during a walk: the path comes out
of a 1024-byte buffer, the offset is 0, the size is a `uint32_t`. -/
def walked_entry (e : tcf_entry) : Prop :=
  e.path.length ≤ 1023 ∧ e.offset = 0 ∧ e.size < 2 ^ 32

/-- Every path of the catalog fits the 1024-byte buffer it was built in. -/
def CatalogOK (g : Globals) : Prop :=
  ∀ e ∈ g.entries, e.path.length ≤ 1023

/-- Specification: one index record, the 2-byte little-endian path length,
the path bytes without terminator, the 4-byte little-endian offset and the
4-byte little-endian size. -/
def index_record_spec (e : tcf_entry) : List Nat :=
  le_bytes_spec 2 e.path.length ++ e.path ++ le_bytes_spec 4 e.offset ++ le_bytes_spec 4 e.size

/-- The status and the catalog of a run of `tcf_pack`, with the index offset
and the entry count found in the header of its output. -/
def PackResult.summary (r : PackResult) : Int × List tcf_entry × Option (Nat × Nat) :=
  (r.status, r.globals.entries, r.out.map fun a => (le32_spec a 6, le32_spec a 10))

/-! ## Trees for the statements on offsets and on the catalog -/

/-- A directory with the files `a` (5 bytes), `b` (empty) and `c` (12 bytes). -/
def sizes_top : Forest :=
  Forest.cons [97] (Tree.file [104, 101, 108, 108, 111])
    (Forest.cons [98] (Tree.file [])
      (Forest.cons [99] (Tree.file [0, 1, 2, 3, 4, 5, 6, 7, 8, 9, 10, 11]) Forest.nil))

/-- The archive `tcf_pack` writes for `sizes_top`. -/
def sizes_archive : List Nat :=
  make_header 35 3 ++ [161, 149, 177, 177, 189] ++ [0, 4, 8, 12, 16, 20, 24, 28, 32, 36, 40, 44] ++
    index_record { path := [97], offset := 0, size := 5 } ++
    index_record { path := [98], offset := 5, size := 0 } ++
    index_record { path := [99], offset := 5, size := 12 } ++ [69, 79, 70]

/-- What `tcf_pack` leaves behind for `sizes_top`. -/
def sizes_packed : PackResult :=
  { status := TCF_OK
    globals := { init_tables Globals.start with
      entries := [{ path := [97], offset := 0, size := 5 },
                  { path := [98], offset := 5, size := 0 },
                  { path := [99], offset := 5, size := 12 }]
      entry_cap := 64 }
    out := some sizes_archive }

/-- A file content of 2^31 zero bytes. -/
def big_content : List Nat := List.replicate 2147483648 0

/-- A directory with the files `a` and `b` of 2^31 bytes each and the
one-byte file `c`. -/
def big_top : Forest :=
  Forest.cons [97] (Tree.file big_content)
    (Forest.cons [98] (Tree.file big_content)
      (Forest.cons [99] (Tree.file [1]) Forest.nil))

/-- Two directories side by side: `in`, the tree of the scenario, and `x`,
holding the single file `c`. -/
def two_dirs : Tree :=
  Tree.dir (Forest.cons [105, 110] (Tree.dir scenario_top)
    (Forest.cons [120] (Tree.dir (Forest.cons [99] (Tree.file [1]) Forest.nil)) Forest.nil))

/-- The environment with `two_dirs` as the directory `r`. -/
def two_dirs_os : OS := mount OS.plain [114] two_dirs

/-- The two calls `tcf_pack(first, "o1"); tcf_pack(second, "o2")` of one
process: the second call starts from the statics the first one left. -/
def pack_twice (os : OS) (fuel : Nat) (first second : List Nat) : Except Abort PackResult :=
  match tcf_pack os fuel Globals.start first [111, 49] with
  | .error a => .error a
  | .ok r1 => tcf_pack os fuel r1.globals second [111, 50]

theorem init_loop_eq (n : Nat) (s u : List Nat) (hs : n ≤ s.length) (hu : n ≤ u.length) :
    (List.range n).foldl init_tables_body (s, u) =
      ((List.range n).map shift_value ++ s.drop n,
       (List.range n).map unshift_value ++ u.drop n) := by
  induction n with
  | zero => simp
  | succ n ih =>
    have h1 : n < s.length := hs
    have h2 : n < u.length := hu
    rw [List.range_succ, List.foldl_append, ih (by omega) (by omega)]
    simp only [List.foldl_cons, List.foldl_nil, init_tables_body, List.map_append,
      List.map_cons, List.map_nil, List.append_assoc]
    congr 1
    · rw [List.set_append_right _ _ (by simp), List.drop_eq_getElem_cons h1]
      simp only [List.length_map, List.length_range, Nat.sub_self, List.set_cons_zero,
        List.singleton_append]
    · rw [List.set_append_right _ _ (by simp), List.drop_eq_getElem_cons h2]
      simp only [List.length_map, List.length_range, Nat.sub_self, List.set_cons_zero,
        List.singleton_append]

theorem init_tables_tables (g : Globals) (h : TablesOK g) :
    (init_tables g).shift_table = (List.range 256).map shift_value ∧
    (init_tables g).unshift_table = (List.range 256).map unshift_value := by
  obtain ⟨hs, hu, hi⟩ := h
  unfold init_tables
  by_cases h0 : g.tables_initialized ≠ 0
  · rw [if_pos h0]; exact hi h0
  · rw [if_neg h0]
    simp only
    rw [init_loop_eq 256 _ _ (by omega) (by omega)]
    have e1 : g.shift_table.drop 256 = [] := List.drop_eq_nil_of_le (by omega)
    have e2 : g.unshift_table.drop 256 = [] := List.drop_eq_nil_of_le (by omega)
    simp [e1, e2]

theorem init_tables_flag (g : Globals) : (init_tables g).tables_initialized ≠ 0 := by
  unfold init_tables
  by_cases h0 : g.tables_initialized ≠ 0
  · rw [if_pos h0]; exact h0
  · rw [if_neg h0]; simp

theorem init_tables_of_flag (g : Globals) (h : g.tables_initialized ≠ 0) :
    init_tables g = g := by
  unfold init_tables
  rw [if_pos h]

theorem init_tables_idem (g : Globals) : init_tables (init_tables g) = init_tables g :=
  init_tables_of_flag _ (init_tables_flag g)

theorem init_tables_ok (g : Globals) (h : TablesOK g) : TablesOK (init_tables g) := by
  obtain ⟨h1, h2⟩ := init_tables_tables g h
  refine ⟨by rw [h1]; simp, by rw [h2]; simp, fun _ => ⟨h1, h2⟩⟩

theorem tablesOK_start : TablesOK Globals.start := by
  refine ⟨List.length_replicate _ _, List.length_replicate _ _, fun h => absurd rfl h⟩

theorem lookup_shift (g : Globals) (h : TablesOK g) (b : Nat) (hb : b < 256) :
    lookup (init_tables g).shift_table b = shift_value b := by
  rw [(init_tables_tables g h).1]
  simp [lookup, List.getD_eq_getElem?_getD, hb]

theorem lookup_unshift (g : Globals) (h : TablesOK g) (b : Nat) (hb : b < 256) :
    lookup (init_tables g).unshift_table b = unshift_value b := by
  rw [(init_tables_tables g h).2]
  simp [lookup, List.getD_eq_getElem?_getD, hb]

theorem shift_value_lt (b : Nat) : shift_value b < 256 := Nat.mod_lt _ (by decide)

theorem unshift_value_lt (b : Nat) : unshift_value b < 256 := Nat.mod_lt _ (by decide)

set_option maxRecDepth 100000 in
theorem unshift_shift_value : ∀ b < 256, unshift_value (shift_value b) = b := by decide

set_option maxRecDepth 100000 in
theorem shift_value_spec : ∀ b < 256, shift_value b = rotl8_spec b 2 := by decide

set_option maxRecDepth 100000 in
theorem unshift_value_spec : ∀ b < 256, unshift_value b = rotr8_spec b 2 := by decide

/-! ## CRC-32 -/

theorem crc32_round_eq_spec (c : Nat) : crc32_round c = crc32_spec_bit c false := by
  unfold crc32_round crc32_spec_bit
  simp only [Nat.and_one_is_mod, Nat.shiftRight_eq_div_pow, pow_one]
  rcases Nat.mod_two_eq_zero_or_one c with h | h
  · rw [h]; simp
  · rw [h]; simp; decide

theorem crc32_spec_bit_lt (c : Nat) (bit : Bool) (h : c < 2 ^ 32) :
    crc32_spec_bit c bit < 2 ^ 32 := by
  unfold crc32_spec_bit
  split
  · exact Nat.xor_lt_two_pow (by omega) (by decide)
  · omega

theorem crc32_round_lt (c : Nat) (h : c < 2 ^ 32) : crc32_round c < 2 ^ 32 := by
  rw [crc32_round_eq_spec]; exact crc32_spec_bit_lt c false h

theorem crc32_round_iter_lt (n c : Nat) (h : c < 2 ^ 32) : crc32_round^[n] c < 2 ^ 32 := by
  induction n generalizing c with
  | zero => simpa using h
  | succ n ih => rw [Function.iterate_succ_apply]; exact ih _ (crc32_round_lt c h)

theorem byte_lt_word (b : Nat) (hb : b < 256) : b < 2 ^ 32 := by omega

theorem crc32_step_lt (c b : Nat) (h : c < 2 ^ 32) (hb : b < 256) :
    crc32_step c b < 2 ^ 32 :=
  crc32_round_iter_lt 8 _ (Nat.xor_lt_two_pow h (byte_lt_word b hb))

theorem crc32_fold_lt (data : List Nat) (c : Nat) (h : c < 2 ^ 32)
    (hd : ∀ b ∈ data, b < 256) : data.foldl crc32_step c < 2 ^ 32 := by
  induction data generalizing c with
  | nil => simpa using h
  | cons b rest ih =>
    rw [List.foldl_cons]
    exact ih _ (crc32_step_lt c b h (hd b (by simp))) (fun x hx => hd x (by simp [hx]))

theorem crc32_lt (data : List Nat) (hd : ∀ b ∈ data, b < 256) : crc32 data < 2 ^ 32 :=
  Nat.xor_lt_two_pow (crc32_fold_lt data _ (by decide) hd) (by decide)

theorem xor_ones_eq_sub (c : Nat) (h : c < 2 ^ 32) : c ^^^ 0xFFFFFFFF = 0xFFFFFFFF - c := by
  apply Nat.eq_of_testBit_eq
  intro i
  have e : (0xFFFFFFFF : Nat) - c = 2 ^ 32 - (c + 1) := by omega
  rw [e, Nat.testBit_two_pow_sub_succ h, Nat.testBit_xor]
  have e2 : (0xFFFFFFFF : Nat) = 2 ^ 32 - 1 := by decide
  rw [e2, Nat.testBit_two_pow_sub_one]
  by_cases hi : i < 32
  · simp [hi]
  · have : c < 2 ^ i := lt_of_lt_of_le h (Nat.pow_le_pow_right (by decide) (by omega))
    simp [hi, Nat.testBit_lt_two_pow this]

/-- One round on `c ^^^ b` is the specification's step on `c` with the lowest
bit of `b`, with the remaining bits of `b` still to be consumed. -/
theorem crc32_round_xor (c b : Nat) :
    crc32_round (c ^^^ b) = crc32_spec_bit c (b.testBit 0) ^^^ (b / 2) := by
  rw [crc32_round_eq_spec]
  unfold crc32_spec_bit
  rw [Nat.xor_div_two, Nat.testBit_zero]
  have hx : (c ^^^ b) % 2 = (c + b) % 2 := Nat.xor_mod_two_eq
  rcases Nat.mod_two_eq_zero_or_one c with h | h <;>
    rcases Nat.mod_two_eq_zero_or_one b with h' | h'
  all_goals
    have e : (c ^^^ b) % 2 = (c % 2 + b % 2) % 2 := by omega
    rw [e, h, h']
    simp [Nat.xor_assoc, Nat.xor_comm]
  all_goals rw [← Nat.xor_assoc, Nat.xor_comm (c / 2) (b / 2), Nat.xor_assoc]

theorem crc32_rounds_eq_bits (k : Nat) : ∀ c b : Nat,
    crc32_round^[k] (c ^^^ b) =
      ((List.range k).map b.testBit).foldl crc32_spec_bit c ^^^ (b / 2 ^ k) := by
  induction k with
  | zero => intro c b; simp
  | succ k ih =>
    intro c b
    rw [Function.iterate_succ_apply, crc32_round_xor, ih, List.range_succ_eq_map,
      List.map_cons, List.foldl_cons, List.map_map]
    have e : (b.testBit ∘ Nat.succ) = (b / 2).testBit := by
      funext i; simp [Nat.testBit_succ]
    rw [e, Nat.div_div_eq_div_mul, pow_succ, Nat.mul_comm]

theorem crc32_step_eq_spec (c b : Nat) (hb : b < 256) :
    crc32_step c b = (byte_bits_spec b).foldl crc32_spec_bit c := by
  unfold crc32_step byte_bits_spec
  rw [crc32_rounds_eq_bits, Nat.div_eq_of_lt (show b < 2 ^ 8 from hb), Nat.xor_zero]

theorem crc32_fold_eq_spec (data : List Nat) (hd : ∀ b ∈ data, b < 256) (c : Nat) :
    data.foldl crc32_step c = (data.flatMap byte_bits_spec).foldl crc32_spec_bit c := by
  induction data generalizing c with
  | nil => rfl
  | cons b rest ih =>
    rw [List.foldl_cons, List.flatMap_cons, List.foldl_append,
      crc32_step_eq_spec c b (hd b (by simp)), ih (fun x hx => hd x (by simp [hx]))]

theorem crc32_eq_spec (data : List Nat) (hd : ∀ b ∈ data, b < 256) :
    crc32 data = crc32_spec data := by
  unfold crc32 crc32_spec
  rw [xor_ones_eq_sub _ (crc32_fold_lt data _ (by decide) hd), crc32_fold_eq_spec data hd]

/-- The round function is injective on 32-bit words: the top bit of the
result tells whether the polynomial was applied. -/
theorem crc32_round_inj (c d : Nat) (hc : c < 2 ^ 32) (hd : d < 2 ^ 32)
    (h : crc32_round c = crc32_round d) : c = d := by
  rw [crc32_round_eq_spec, crc32_round_eq_spec] at h
  have top : ∀ x, x < 2 ^ 32 → 2 ^ 31 ≤ (x / 2) ^^^ 0xEDB88320 := by
    intro x hx
    by_contra hlt
    have h1 := Nat.testBit_lt_two_pow (Nat.lt_of_not_le hlt)
    rw [Nat.testBit_xor, Nat.testBit_lt_two_pow (show x / 2 < 2 ^ 31 by omega)] at h1
    revert h1; decide
  unfold crc32_spec_bit at h
  simp only [Bool.bne_false, decide_eq_true_eq] at h
  rcases Nat.mod_two_eq_zero_or_one c with h1 | h1 <;>
    rcases Nat.mod_two_eq_zero_or_one d with h2 | h2
  · simp only [h1, h2] at h; simp at h; omega
  · simp only [h1, h2] at h; simp at h
    have := top d hd; omega
  · simp only [h1, h2] at h; simp at h
    have := top c hc; omega
  · simp only [h1, h2] at h; simp at h
    omega

theorem crc32_round_iter_inj (n c d : Nat) (hc : c < 2 ^ 32) (hd : d < 2 ^ 32)
    (h : crc32_round^[n] c = crc32_round^[n] d) : c = d := by
  induction n generalizing c d with
  | zero => simpa using h
  | succ n ih =>
    rw [Function.iterate_succ_apply, Function.iterate_succ_apply] at h
    exact crc32_round_inj c d hc hd (ih _ _ (crc32_round_lt c hc) (crc32_round_lt d hd) h)

theorem crc32_step_inj_state (c d b : Nat) (hc : c < 2 ^ 32) (hd : d < 2 ^ 32) (hb : b < 256)
    (h : crc32_step c b = crc32_step d b) : c = d :=
  Nat.xor_left_inj.mp (crc32_round_iter_inj 8 _ _
    (Nat.xor_lt_two_pow hc (byte_lt_word b hb)) (Nat.xor_lt_two_pow hd (byte_lt_word b hb)) h)

theorem crc32_step_inj_byte (c a b : Nat) (hc : c < 2 ^ 32) (ha : a < 256) (hb : b < 256)
    (h : crc32_step c a = crc32_step c b) : a = b :=
  Nat.xor_right_inj.mp (crc32_round_iter_inj 8 _ _
    (Nat.xor_lt_two_pow hc (byte_lt_word a ha)) (Nat.xor_lt_two_pow hc (byte_lt_word b hb)) h)

theorem crc32_fold_inj (data : List Nat) (c d : Nat) (hc : c < 2 ^ 32) (hd : d < 2 ^ 32)
    (hdata : ∀ b ∈ data, b < 256)
    (h : data.foldl crc32_step c = data.foldl crc32_step d) : c = d := by
  induction data generalizing c d with
  | nil => simpa using h
  | cons b rest ih =>
    have hb : b < 256 := hdata b (by simp)
    rw [List.foldl_cons, List.foldl_cons] at h
    exact crc32_step_inj_state c d b hc hd hb
      (ih _ _ (crc32_step_lt c b hc hb) (crc32_step_lt d b hd hb)
        (fun x hx => hdata x (by simp [hx])) h)

/-- Two byte sequences that differ in exactly one byte have different CRCs. -/
theorem crc32_one_byte (pre post : List Nat) (a b : Nat)
    (hpre : ∀ x ∈ pre, x < 256) (hpost : ∀ x ∈ post, x < 256)
    (ha : a < 256) (hb : b < 256) (hab : a ≠ b) :
    crc32 (pre ++ a :: post) ≠ crc32 (pre ++ b :: post) := by
  intro h
  unfold crc32 at h
  have h := Nat.xor_left_inj.mp h
  rw [List.foldl_append, List.foldl_append, List.foldl_cons, List.foldl_cons] at h
  have hs := crc32_fold_lt pre 0xFFFFFFFF (by decide) hpre
  have := crc32_fold_inj post _ _ (crc32_step_lt _ a hs ha) (crc32_step_lt _ b hs hb) hpost h
  exact hab (crc32_step_inj_byte _ a b hs ha hb this)

theorem xor_two_pow_ne (b j : Nat) : b ^^^ 2 ^ j ≠ b := by
  intro h
  have := congrArg (fun x => x.testBit j) h
  simp only [Nat.testBit_xor, Nat.testBit_two_pow_self] at this
  cases hb : b.testBit j <;> simp [hb] at this

theorem xor_two_pow_lt (b j : Nat) (hb : b < 256) (hj : j < 8) : b ^^^ 2 ^ j < 256 := by
  have h1 : b < 2 ^ 8 := hb
  have h2 : 2 ^ j < 2 ^ 8 := Nat.pow_lt_pow_right (by decide) hj
  exact Nat.xor_lt_two_pow h1 h2

theorem flip_bit_split (data : List Nat) (k : Nat) (hk : k / 8 < data.length) :
    data = data.take (k / 8) ++ data.getD (k / 8) 0 :: data.drop (k / 8 + 1) ∧
    flip_bit data k =
      data.take (k / 8) ++ (data.getD (k / 8) 0 ^^^ 2 ^ (k % 8)) :: data.drop (k / 8 + 1) := by
  constructor
  · rw [List.getD_eq_getElem _ _ hk, ← List.drop_eq_getElem_cons hk, List.take_append_drop]
  · unfold flip_bit
    rw [List.set_eq_take_append_cons_drop, if_pos hk]

theorem crc32_flip_bit (data : List Nat) (k : Nat) (hd : ∀ b ∈ data, b < 256)
    (hk : k < 8 * data.length) : crc32 (flip_bit data k) ≠ crc32 data := by
  have hi : k / 8 < data.length := by omega
  obtain ⟨e1, e2⟩ := flip_bit_split data k hi
  have hb : data.getD (k / 8) 0 < 256 := by
    rw [List.getD_eq_getElem _ _ hi]; exact hd _ (List.getElem_mem _)
  rw [e2]
  conv_rhs => rw [e1]
  exact crc32_one_byte _ _ _ _
    (fun x hx => hd x (List.mem_of_mem_take hx)) (fun x hx => hd x (List.mem_of_mem_drop hx))
    (xor_two_pow_lt _ _ hb (Nat.mod_lt _ (by decide))) hb (xor_two_pow_ne _ _)

/-! ## Header fields -/

theorem or_shift (a b k : Nat) (h : a < 2 ^ k) : a ||| b <<< k = a + b * 2 ^ k := by
  rw [Nat.shiftLeft_eq, Nat.or_comm, Nat.mul_comm, ← Nat.mul_add_lt_is_or h]; omega

theorem getD_lt (h : List Nat) (hb : ∀ b ∈ h, b < 256) (i : Nat) : h.getD i 0 < 256 := by
  by_cases hi : i < h.length
  · rw [List.getD_eq_getElem _ _ hi]; exact hb _ (List.getElem_mem _)
  · rw [List.getD_eq_default _ _ (by omega)]; decide

theorem or4_eq (a b c d : Nat) (ha : a < 256) (hb : b < 256) (hc : c < 256) (hd : d < 256) :
    (a ||| b <<< 8 ||| c <<< 16 ||| d <<< 24) % 2 ^ 32 =
      a + 256 * b + 256 ^ 2 * c + 256 ^ 3 * d := by
  rw [or_shift a b 8 (by omega), or_shift _ c 16 (by omega), or_shift _ d 24 (by omega)]
  omega

theorem get_u32_eq_spec (h : List Nat) (hb : ∀ b ∈ h, b < 256) (i : Nat) :
    get_u32 h i = le32_spec h i :=
  or4_eq _ _ _ _ (getD_lt h hb _) (getD_lt h hb _) (getD_lt h hb _) (getD_lt h hb _)

theorem put_u32_eq_spec (v : Nat) : put_u32 v = le_bytes_spec 4 v := by
  simp [put_u32, le_bytes_spec, List.range, List.range.loop]

theorem put_u16_eq_spec (v : Nat) : put_u16 v = le_bytes_spec 2 v := by
  simp [put_u16, le_bytes_spec, List.range, List.range.loop]

theorem put_u32_lt (v : Nat) : ∀ b ∈ put_u32 v, b < 256 := by
  intro b hb
  simp only [put_u32, List.mem_cons, List.mem_singleton, List.not_mem_nil, or_false] at hb
  omega

theorem put_u32_length (v : Nat) : (put_u32 v).length = 4 := rfl

theorem get_u32_put (v : Nat) (hv : v < 2 ^ 32) (pre post : List Nat) :
    get_u32 (pre ++ put_u32 v ++ post) pre.length = v := by
  unfold get_u32
  have e : ∀ k, k < 4 → (pre ++ put_u32 v ++ post).getD (pre.length + k) 0
      = (put_u32 v).getD k 0 := by
    intro k hk
    rw [List.append_assoc, List.getD_append_right _ _ _ _ (by omega)]
    rw [Nat.add_sub_cancel_left, List.getD_append _ _ _ _ (by simpa [put_u32] using hk)]
  have e0 := e 0 (by omega)
  rw [Nat.add_zero] at e0
  rw [e0, e 1 (by omega), e 2 (by omega), e 3 (by omega)]
  simp only [put_u32, List.getD_cons_zero, List.getD_cons_succ]
  rw [or4_eq _ _ _ _ (by omega) (by omega) (by omega) (by omega)]
  omega

/-! ## Statuses the record loop can return -/

theorem extract_loop_status (os : OS) (table payload output_dir : List Nat) (n : Nat) :
    ∀ (stream : List Nat) (ev : List Event) (st : Int) (ev1 : List Event),
      extract_loop os table payload output_dir n stream ev = .ok (st, ev1) →
      st = TCF_OK ∨ st = TCF_ERR_MEMORY ∨ st = TCF_ERR_IO := by
  induction n with
  | zero =>
    intro stream ev st ev1 h
    simp only [extract_loop, Except.ok.injEq, Prod.mk.injEq] at h
    exact Or.inl h.1.symm
  | succ n ih =>
    intro stream ev st ev1 h
    simp only [extract_loop] at h
    split at h
    · simp only [Except.ok.injEq, Prod.mk.injEq] at h
      exact Or.inr (Or.inl h.1.symm)
    · split at h
      · exact ih _ _ _ _ h
      · split at h
        · simp only [Except.ok.injEq, Prod.mk.injEq] at h
          exact Or.inr (Or.inr h.1.symm)
        · split at h
          · exact absurd h (by simp)
          · exact ih _ _ _ _ h

/-! ## Header validation in `tcf_extract` -/

theorem take18_length (archive : List Nat) :
    (archive.take 18).length ≠ 18 ↔ archive.length < 18 := by
  rw [List.length_take]; omega

theorem getD_take (l : List Nat) (n i : Nat) (h : i < n) : (l.take n).getD i 0 = l.getD i 0 := by
  simp only [List.getD_eq_getElem?_getD, List.getElem?_take, if_pos h]

theorem get_u32_take18 (archive : List Nat) (i : Nat) (h : i + 3 < 18) :
    get_u32 (archive.take 18) i = get_u32 archive i := by
  unfold get_u32
  rw [getD_take _ _ _ (by omega), getD_take _ _ _ (by omega), getD_take _ _ _ (by omega),
    getD_take _ _ _ (by omega)]

theorem take_take18 (archive : List Nat) (n : Nat) (h : n ≤ 18) :
    (archive.take 18).take n = archive.take n := by
  rw [List.take_take, Nat.min_eq_left h]

/-- The run of `tcf_extract` up to the header checks: short header or wrong
magic. -/
theorem tcf_extract_format (os : OS) (g : Globals) (tcf_path output_dir archive : List Nat)
    (hopen : os.fopen_rb tcf_path = some archive)
    (hbad : archive.length < 18 ∨ archive.take 3 ≠ TCF_MAGIC) :
    tcf_extract os g tcf_path output_dir =
      .ok { status := TCF_ERR_FORMAT, globals := init_tables g, events := [] } := by
  unfold tcf_extract
  simp only [hopen]
  by_cases hlen : archive.length < 18
  · rw [if_pos ((take18_length archive).mpr hlen)]
  · rw [if_neg (fun h => hlen ((take18_length archive).mp h))]
    have hm : archive.take 3 ≠ TCF_MAGIC := hbad.resolve_left hlen
    rw [take_take18 _ 3 (by omega), if_pos hm]

/-- The run of `tcf_extract` when the header is complete, the magic matches
and the stored CRC differs. -/
theorem tcf_extract_crc (os : OS) (g : Globals) (tcf_path output_dir archive : List Nat)
    (hopen : os.fopen_rb tcf_path = some archive)
    (hlen : 18 ≤ archive.length) (hmagic : archive.take 3 = TCF_MAGIC)
    (hcrc : crc32 (archive.take 14) ≠ get_u32 archive 14) :
    tcf_extract os g tcf_path output_dir =
      .ok { status := TCF_ERR_CRC, globals := init_tables g, events := [] } := by
  unfold tcf_extract
  simp only [hopen]
  rw [if_neg (fun h => absurd ((take18_length archive).mp h) (by omega))]
  rw [take_take18 _ 3 (by omega), if_neg (fun h => h hmagic)]
  rw [take_take18 _ 14 (by omega), get_u32_take18 _ 14 (by omega), if_pos hcrc]

/-- After a good header `tcf_extract` returns only `TCF_OK`, `TCF_ERR_MEMORY`
or `TCF_ERR_IO`, if it returns. -/
theorem tcf_extract_after_header (os : OS) (g : Globals) (tcf_path output_dir archive : List Nat)
    (hopen : os.fopen_rb tcf_path = some archive)
    (hlen : 18 ≤ archive.length) (hmagic : archive.take 3 = TCF_MAGIC)
    (hcrc : crc32 (archive.take 14) = get_u32 archive 14) (r : ExtractResult)
    (hr : tcf_extract os g tcf_path output_dir = .ok r) :
    r.status = TCF_OK ∨ r.status = TCF_ERR_MEMORY ∨ r.status = TCF_ERR_IO := by
  unfold tcf_extract at hr
  simp only [hopen] at hr
  rw [if_neg (fun h => absurd ((take18_length archive).mp h) (by omega))] at hr
  rw [take_take18 _ 3 (by omega), if_neg (fun h => h hmagic)] at hr
  rw [take_take18 _ 14 (by omega), get_u32_take18 _ 14 (by omega),
    if_neg (fun h => h hcrc)] at hr
  split at hr
  · simp only [Except.ok.injEq] at hr; subst hr; exact Or.inr (Or.inl rfl)
  · split at hr
    · simp only [Except.ok.injEq] at hr; subst hr; exact Or.inr (Or.inr rfl)
    · split at hr
      · exact absurd hr (by simp)
      · rename_i st ev hloop
        simp only [Except.ok.injEq] at hr; subst hr
        exact extract_loop_status _ _ _ _ _ _ _ _ _ hloop

/-! ## The shape of a successful `tcf_pack` -/

theorem tcf_pack_ok_shape (os : OS) (fuel : Nat) (g : Globals) (input_dir out_path : List Nat)
    (r : PackResult) (h : tcf_pack os fuel g input_dir out_path = .ok r)
    (hs : r.status = TCF_OK) :
    ∃ g2 payload,
      walk_dir os fuel input_dir [] (init_tables g) = .ok g2 ∧
      os.fopen_wb [] out_path = true ∧
      pack_files os g2.shift_table input_dir g2.entries 0 =
        .ok (true, r.globals.entries, payload) ∧
      r.globals = { g2 with entries := r.globals.entries } ∧
      r.out = some (make_header ((18 + payload.length) % 2 ^ 32) r.globals.entries.length ++
        payload ++ (r.globals.entries.map index_record).flatten ++ [69, 79, 70]) := by
  unfold tcf_pack at h
  simp only at h
  split at h
  · exact absurd h (by simp)
  · rename_i g2 hwalk
    split at h
    · simp only [Except.ok.injEq] at h; subst h
      exact absurd hs (show TCF_ERR_IO ≠ TCF_OK by decide)
    · rename_i hopen
      split at h
      · exact absurd h (by simp)
      · rename_i ok es payload hfiles
        split at h
        · simp only [Except.ok.injEq] at h; subst h
          exact absurd hs (show TCF_ERR_IO ≠ TCF_OK by decide)
        · rename_i hok
          simp only [Except.ok.injEq] at h; subst h
          have hok' : ok = true := by simpa using hok
          subst hok'
          exact ⟨g2, payload, hwalk, by simpa using hopen, hfiles, rfl, rfl⟩

theorem header14_length (io n : Nat) : (header14 io n).length = 14 := rfl

theorem header14_lt (io n : Nat) : ∀ b ∈ header14 io n, b < 256 := by
  intro b hb
  simp only [header14, List.mem_append, List.mem_cons, List.mem_singleton, List.not_mem_nil,
    or_false] at hb
  rcases hb with ((hb | hb) | hb) | hb
  · rcases hb with hb | hb | hb <;> omega
  · rcases hb with hb | hb | hb <;> subst hb <;> decide
  · exact put_u32_lt _ b hb
  · exact put_u32_lt _ b hb

theorem make_header_length (io n : Nat) : (make_header io n).length = 18 := rfl

theorem make_header_lt (io n : Nat) : ∀ b ∈ make_header io n, b < 256 := by
  intro b hb
  simp only [make_header, List.mem_append] at hb
  rcases hb with hb | hb
  · exact header14_lt io n b hb
  · exact put_u32_lt _ b hb

theorem make_header_take14 (io n : Nat) (rest : List Nat) :
    (make_header io n ++ rest).take 14 = header14 io n := by
  unfold make_header
  rw [List.append_assoc, List.take_append_of_le_length (by rw [header14_length]),
    List.take_of_length_le (by rw [header14_length])]

theorem make_header_take3 (io n : Nat) (rest : List Nat) :
    (make_header io n ++ rest).take 3 = TCF_MAGIC := rfl

theorem make_header_crc (io n : Nat) (rest : List Nat) :
    get_u32 (make_header io n ++ rest) 14 = crc32 (header14 io n) := by
  have h := get_u32_put (crc32 (header14 io n)) (crc32_lt _ (header14_lt io n))
    (header14 io n) rest
  rw [header14_length] at h
  exact h

theorem make_header_index_offset (io n : Nat) (hio : io < 2 ^ 32) (rest : List Nat) :
    get_u32 (make_header io n ++ rest) 6 = io := by
  have h := get_u32_put io hio (TCF_MAGIC ++ [VERSION, 0, ENDIANNESS])
    (put_u32 (n % 2 ^ 32) ++ put_u32 (crc32 (header14 io n)) ++ rest)
  simpa [make_header, header14, List.append_assoc] using h

theorem make_header_count (io n : Nat) (rest : List Nat) :
    get_u32 (make_header io n ++ rest) 10 = n % 2 ^ 32 := by
  have h := get_u32_put (n % 2 ^ 32) (Nat.mod_lt _ (by decide))
    (TCF_MAGIC ++ [VERSION, 0, ENDIANNESS] ++ put_u32 io)
    (put_u32 (crc32 (header14 io n)) ++ rest)
  simpa [make_header, header14, List.append_assoc, put_u32_length] using h

/-! ## Flipping a header bit -/

theorem flip_bit_append (h rest : List Nat) (k : Nat) (hk : k / 8 < h.length) :
    flip_bit (h ++ rest) k = flip_bit h k ++ rest := by
  unfold flip_bit
  rw [List.set_append_left _ _ hk, List.getD_append _ _ _ _ hk]

theorem flip_bit_length (h : List Nat) (k : Nat) : (flip_bit h k).length = h.length := by
  unfold flip_bit; rw [List.length_set]

theorem flip_bit_append_right (pre h : List Nat) (k : Nat) (hk : pre.length ≤ k / 8) :
    (flip_bit (pre ++ h) k).take pre.length = pre := by
  unfold flip_bit
  rw [List.set_append_right _ _ hk, List.take_left']
  rfl

set_option maxRecDepth 100000 in
theorem flip_magic_ne : ∀ k, k < 24 → flip_bit TCF_MAGIC k ≠ TCF_MAGIC := by decide

/-- The archive of a successful `tcf_pack` with one of its first 112 bits
flipped: the pieces `tcf_extract` looks at. -/
theorem flipped_header (io n : Nat) (rest : List Nat) (k : Nat) (hk : k < 112) :
    18 ≤ (flip_bit (make_header io n ++ rest) k).length ∧
    (flip_bit (make_header io n ++ rest) k).take 14 = flip_bit (header14 io n) k ∧
    get_u32 (flip_bit (make_header io n ++ rest) k) 14 = crc32 (header14 io n) ∧
    (k < 24 → (flip_bit (make_header io n ++ rest) k).take 3 ≠ TCF_MAGIC) ∧
    (24 ≤ k → (flip_bit (make_header io n ++ rest) k).take 3 = TCF_MAGIC) := by
  have e : flip_bit (make_header io n ++ rest) k =
      flip_bit (header14 io n) k ++ put_u32 (crc32 (header14 io n)) ++ rest := by
    unfold make_header
    rw [List.append_assoc, flip_bit_append _ _ _ (by rw [header14_length]; omega),
      List.append_assoc]
  have hl : (flip_bit (header14 io n) k).length = 14 := by
    rw [flip_bit_length, header14_length]
  refine ⟨?_, ?_, ?_, ?_, ?_⟩
  · rw [flip_bit_length, List.length_append, make_header_length]; omega
  · rw [e, List.append_assoc, List.take_append_of_le_length (by omega),
      List.take_of_length_le (by omega)]
  · rw [e]
    have h := get_u32_put (crc32 (header14 io n)) (crc32_lt _ (header14_lt io n))
      (flip_bit (header14 io n) k) rest
    rw [hl] at h
    exact h
  · intro hk3
    have e3 : flip_bit (make_header io n ++ rest) k =
        flip_bit TCF_MAGIC k ++ ([VERSION, 0, ENDIANNESS] ++ put_u32 io ++ put_u32 (n % 2 ^ 32)
          ++ put_u32 (crc32 (header14 io n)) ++ rest) := by
      have : make_header io n ++ rest = TCF_MAGIC ++ ([VERSION, 0, ENDIANNESS] ++ put_u32 io ++
          put_u32 (n % 2 ^ 32) ++ put_u32 (crc32 (header14 io n)) ++ rest) := by
        simp [make_header, header14, List.append_assoc]
      rw [this, flip_bit_append _ _ _ (by simp; omega)]
    rw [e3, List.take_append_of_le_length (by rw [flip_bit_length]; simp),
      List.take_of_length_le (by rw [flip_bit_length]; simp)]
    exact flip_magic_ne k hk3
  · intro hk3
    have : make_header io n ++ rest = TCF_MAGIC ++ ([VERSION, 0, ENDIANNESS] ++ put_u32 io ++
        put_u32 (n % 2 ^ 32) ++ put_u32 (crc32 (header14 io n)) ++ rest) := by
      simp [make_header, header14, List.append_assoc]
    rw [this]
    exact flip_bit_append_right TCF_MAGIC _ k (by simp; omega)

/-! ## The scenario, evaluated -/

set_option maxRecDepth 100000 in
theorem scenario_pack :
    tcf_pack scenario_os 2 Globals.start [105, 110] [111, 117, 116] = .ok scenario_packed := by
  decide!

/-! ## The chunk loops -/

theorem pack_chunks_eq (table : List Nat) (fuel : Nat) :
    ∀ unread : List Nat, unread.length ≤ fuel →
      pack_chunks table fuel unread = .ok (unread.map (lookup table)) := by
  induction fuel with
  | zero =>
    intro unread h
    have : unread = [] := List.length_eq_zero.mp (by omega)
    subst this
    unfold pack_chunks
    simp
  | succ fuel ih =>
    intro unread h
    unfold pack_chunks
    by_cases h0 : (unread.take BUFFER_SIZE).length = 0
    · have : unread = [] := by
        rw [List.length_take] at h0
        have : unread.length = 0 := by
          have hb : BUFFER_SIZE = 8192 := rfl
          omega
        exact List.length_eq_zero.mp this
      subst this
      simp
    · simp only [h0, if_false]
      have hlen : (unread.drop BUFFER_SIZE).length ≤ fuel := by
        rw [List.length_drop]
        rw [List.length_take] at h0
        have hb : BUFFER_SIZE = 8192 := rfl
        omega
      rw [ih _ hlen]
      simp only
      rw [← List.map_append, List.take_append_drop]

theorem decode_chunk_eq (table payload : List Nat) (pos : Nat) (n : Nat) :
    ∀ j, pos + j + n ≤ payload.length → payload.length < 2 ^ 32 →
      decode_chunk table payload pos n j =
        .ok (((payload.drop (pos + j)).take n).map (lookup table)) := by
  induction n with
  | zero => intro j _ _; simp [decode_chunk]
  | succ n ih =>
    intro j h hlt
    unfold decode_chunk
    have hidx : (pos + j) % 2 ^ 32 = pos + j := Nat.mod_eq_of_lt (by omega)
    have hj : pos + j < payload.length := by omega
    rw [hidx, List.get?_eq_getElem?, List.getElem?_eq_getElem hj]
    simp only
    rw [ih (j + 1) (by omega) hlt]
    simp only
    rw [List.drop_eq_getElem_cons hj, List.take_succ_cons, List.map_cons]
    rfl

theorem copy_loop_eq (table payload : List Nat) (fuel : Nat) :
    ∀ pos remaining, remaining ≤ fuel → pos + remaining ≤ payload.length →
      payload.length < 2 ^ 32 →
      copy_loop table payload fuel pos remaining =
        .ok (((payload.drop pos).take remaining).map (lookup table)) := by
  induction fuel with
  | zero =>
    intro pos remaining h _ _
    have : remaining = 0 := by omega
    subst this
    unfold copy_loop
    simp
  | succ fuel ih =>
    intro pos remaining h hle hlt
    unfold copy_loop
    by_cases h0 : remaining = 0
    · subst h0; simp
    · simp only [h0, if_false]
      have hb : BUFFER_SIZE = 8192 := rfl
      by_cases hbig : remaining > BUFFER_SIZE
      · simp only [hbig, if_true]
        rw [decode_chunk_eq table payload pos BUFFER_SIZE 0 (by omega) hlt]
        simp only
        rw [Nat.mod_eq_of_lt (by omega), ih _ _ (by omega) (by omega) hlt]
        simp only [Nat.add_zero]
        rw [← List.map_append]
        congr 2
        have : remaining = BUFFER_SIZE + (remaining - BUFFER_SIZE) := by omega
        conv_rhs => rw [this, List.take_add, List.drop_drop]
      · simp only [hbig, if_false]
        rw [decode_chunk_eq table payload pos remaining 0 (by omega) hlt]
        simp only
        rw [Nat.mod_eq_of_lt (by omega), Nat.sub_self]
        unfold copy_loop
        simp

/-! ## Reading back one index record -/

theorem read_u16_put (v : Nat) (hv : v < 2 ^ 16) (s : List Nat) :
    read_u16 (put_u16 v ++ s) = (v, s) := by
  unfold read_u16
  have e : (put_u16 v ++ s).take 2 = put_u16 v := by simp [put_u16]
  have e2 : (put_u16 v ++ s).drop 2 = s := by simp [put_u16]
  simp only [e, e2]
  simp only [put_u16, List.length_cons, List.length_nil, ne_eq, not_true_eq_false, if_false,
    List.getD_cons_zero, List.getD_cons_succ, Nat.zero_add, Nat.reduceAdd]
  rw [or_shift _ _ 8 (by omega)]
  congr 1
  omega

theorem read_u32_put (v : Nat) (hv : v < 2 ^ 32) (s : List Nat) :
    read_u32 (put_u32 v ++ s) = (v, s) := by
  unfold read_u32
  have e : (put_u32 v ++ s).take 4 = put_u32 v := by simp [put_u32]
  have e2 : (put_u32 v ++ s).drop 4 = s := by simp [put_u32]
  simp only [e, e2, put_u32_length, ne_eq, not_true_eq_false, if_false]
  have h := get_u32_put v hv [] []
  simp only [List.nil_append, List.append_nil, List.length_nil] at h
  rw [h]

theorem cstr_terminated (p : List Nat) (hp : 0 ∉ p) : cstr (p ++ [0]) = p := by
  unfold cstr
  induction p with
  | nil => simp [List.takeWhile]
  | cons a rest ih =>
    have ha : a ≠ 0 := fun h => hp (by simp [h])
    have hr : 0 ∉ rest := fun h => hp (by simp [h])
    simp only [List.cons_append, List.takeWhile_cons, ha, ne_eq, not_false_eq_true,
      decide_True, if_true]
    rw [ih hr]

/-- One iteration of the record loop on a well-formed index record. -/
theorem extract_loop_on_record (os : OS) (table payload output_dir : List Nat) (n : Nat)
    (e : tcf_entry) (rest : List Nat) (ev : List Event)
    (hlen : e.path.length < 2 ^ 16) (hnul : 0 ∉ e.path)
    (hoff : e.offset < 2 ^ 32) (hsize : e.size < 2 ^ 32) :
    extract_loop os table payload output_dir (n + 1) (index_record e ++ rest) ev =
      if os.alloc (e.path.length + 1) = false then .ok (TCF_ERR_MEMORY, ev)
      else if has_dotdot e.path then
        extract_loop os table payload output_dir n
          (put_u32 e.offset ++ put_u32 e.size ++ rest) ev
      else if os.fopen_wb
          (ev ++ (ensure_dirs (snprintf (output_dir ++ [47] ++ e.path))).2.map Event.mkdir)
          (snprintf (output_dir ++ [47] ++ e.path)) = false then
        .ok ( TCF_ERR_IO,
          ev ++ (ensure_dirs (snprintf (output_dir ++ [47] ++ e.path))).2.map Event.mkdir)
      else
        match copy_loop table payload e.size e.offset e.size with
        | .error a => .error a
        | .ok content =>
          extract_loop os table payload output_dir n rest
            (ev ++ (ensure_dirs (snprintf (output_dir ++ [47] ++ e.path))).2.map Event.mkdir ++
              [Event.file (snprintf (output_dir ++ [47] ++ e.path)) content]) := by
  have hmod : e.path.length % 2 ^ 16 = e.path.length := Nat.mod_eq_of_lt hlen
  have hrec : index_record e ++ rest =
      put_u16 e.path.length ++ (e.path ++ (put_u32 e.offset ++ (put_u32 e.size ++ rest))) := by
    simp only [index_record, hmod, List.take_length, List.append_assoc]
  rw [hrec]
  conv_lhs => unfold extract_loop
  have htake : (e.path ++ (put_u32 e.offset ++ (put_u32 e.size ++ rest))).take e.path.length
      = e.path := List.take_left' rfl
  have hdrop : (e.path ++ (put_u32 e.offset ++ (put_u32 e.size ++ rest))).drop e.path.length
      = put_u32 e.offset ++ (put_u32 e.size ++ rest) := List.drop_left' rfl
  simp only [read_u16_put _ hlen, htake, hdrop, Nat.sub_self, List.range_zero, List.map_nil,
    List.append_nil, cstr_terminated _ hnul, read_u32_put _ hoff, read_u32_put _ hsize,
    List.append_assoc]

theorem with_offsets_length (es : List tcf_entry) : ∀ off, (with_offsets es off).length = es.length := by
  induction es with
  | nil => intro off; rfl
  | cons e rest ih => intro off; simp [with_offsets, ih]

theorem pack_files_eq (os : OS) (table dir : List Nat) (fs : List (List Nat × List Nat)) :
    ∀ off, (∀ pc ∈ fs, os.fopen_rb (snprintf (dir ++ [47] ++ pc.1)) = some pc.2) →
      pack_files os table dir (fs.map entry_of) off =
        .ok (true, with_offsets (fs.map entry_of) off, payload_of table fs) := by
  induction fs with
  | nil => intro off _; rfl
  | cons pc rest ih =>
    intro off h
    have h1 := h pc (by simp)
    simp only [List.map_cons, pack_files]
    have e1 : (entry_of pc).path = pc.1 := rfl
    rw [e1, h1]
    simp only
    rw [pack_chunks_eq table _ _ (le_refl _)]
    simp only
    rw [ih _ (fun x hx => h x (by simp [hx]))]
    rfl

theorem rel_of_nil : rel_of [] = [] := rfl
theorem rel_of_single (c : List Nat) : rel_of [c] = c := by
  simp [rel_of, List.intercalate]
theorem rel_of_cons_cons (c d : List Nat) (cs : List (List Nat)) :
    rel_of (c :: d :: cs) = c ++ [47] ++ rel_of (d :: cs) := by
  simp [rel_of, List.intercalate]

theorem rel_of_ne_nil (comps : List (List Nat)) (h : ∀ c ∈ comps, c ≠ []) (hne : comps ≠ []) :
    rel_of comps ≠ [] := by
  cases comps with
  | nil => exact absurd rfl hne
  | cons c cs =>
    cases cs with
    | nil => rw [rel_of_single]; exact h c (by simp)
    | cons d ds =>
      rw [rel_of_cons_cons]
      have := h c (by simp)
      simp [this]

theorem rel_join_rel_of (comps : List (List Nat)) (n : List Nat)
    (h : ∀ c ∈ comps, c ≠ []) : rel_join (rel_of comps) n = rel_of (comps ++ [n]) := by
  induction comps with
  | nil => simp [rel_join, rel_of_nil, rel_of_single]
  | cons c cs ih =>
    have hc : c ≠ [] := h c (by simp)
    have hcs : ∀ x ∈ cs, x ≠ [] := fun x hx => h x (by simp [hx])
    have hne := rel_of_ne_nil (c :: cs) h (by simp)
    cases cs with
    | nil =>
      simp only [List.nil_append, List.cons_append, rel_of_cons_cons, rel_of_single]
      simp [rel_join, rel_of_single, hc]
    | cons d ds =>
      have ih' := ih hcs
      have hne' := rel_of_ne_nil (d :: ds) hcs (by simp)
      simp only [List.cons_append, rel_of_cons_cons] at ih' ⊢
      rw [← ih']
      simp only [rel_join, hne', ne_eq, not_false_eq_true, if_true, List.append_assoc]
      have : c ++ ([47] ++ rel_of (d :: ds)) ≠ [] := by simp [hc]
      simp [this]

theorem split_rel_of (comps : List (List Nat)) (h : ∀ c ∈ comps, c ≠ [] ∧ 47 ∉ c) :
    ((rel_of comps).splitOn 47).filter (fun c => c ≠ []) = comps := by
  by_cases hne : comps = []
  · subst hne; rw [rel_of_nil, List.splitOn_nil]; rfl
  · unfold rel_of
    have e : ([47].intercalate comps).splitOn 47 = comps :=
      List.splitOn_intercalate comps 47 (fun l hl => (h l hl).2) hne
    rw [e, List.filter_eq_self]
    intro c hc
    simpa using (h c hc).1

theorem at_path_rel_of (root : Tree) (base : List Nat) (comps : List (List Nat))
    (h : ∀ c ∈ comps, c ≠ [] ∧ 47 ∉ c) :
    root.at_path base (base ++ [47] ++ rel_of comps) = root.find comps := by
  unfold Tree.at_path
  have hp : (base ++ [47]).isPrefixOf (base ++ [47] ++ rel_of comps) = true := by
    rw [List.isPrefixOf_iff_prefix]
    exact List.prefix_append _ _
  rw [if_pos hp]
  have hd : (base ++ [47] ++ rel_of comps).drop (base.length + 1) = rel_of comps :=
    List.drop_left' (by simp)
  rw [hd, split_rel_of comps h]

theorem find_append (comps : List (List Nat)) (n : List Nat) : ∀ root : Tree,
    root.find (comps ++ [n]) =
      match root.find comps with
      | some (Tree.dir ch) => ch.child n
      | _ => none := by
  induction comps with
  | nil =>
    intro root
    cases root with
    | file c => simp [Tree.find]
    | dir ch =>
      simp only [List.nil_append, Tree.find]
      cases ch.child n <;> simp [Tree.find]
  | cons c cs ih =>
    intro root
    cases root with
    | file c => simp [Tree.find]
    | dir ch =>
      simp only [List.cons_append, Tree.find]
      cases hch : ch.child c with
      | none => simp
      | some t => simp only; exact ih t

/-! ## The directory walk over a mounted tree -/

theorem extends_by_refl (g : Globals) : g.extends_by g [] :=
  ⟨rfl, rfl, rfl, (List.append_nil _).symm⟩

theorem extends_by_trans (g g1 g2 : Globals) (a b : List tcf_entry)
    (h1 : g.extends_by g1 a) (h2 : g1.extends_by g2 b) : g.extends_by g2 (a ++ b) := by
  obtain ⟨a1, a2, a3, a4⟩ := h1
  obtain ⟨b1, b2, b3, b4⟩ := h2
  exact ⟨b1.trans a1, b2.trans a2, b3.trans a3, by rw [b4, a4, List.append_assoc]⟩

theorem add_entry_extends (os : OS) (halloc : ∀ n, os.alloc n = true) (g : Globals)
    (path : List Nat) (size : Nat) :
    ∃ g1, add_entry os g path size = .ok g1 ∧
      g.extends_by g1 [{ path := path, offset := 0, size := size }] := by
  unfold add_entry
  simp only [halloc, Bool.true_eq_false, and_false, if_false]
  exact ⟨_, rfl, rfl, rfl, rfl, rfl⟩

theorem mount_stat (os0 : OS) (base : List Nat) (root : Tree) (p : List Nat) :
    (mount os0 base root).stat p =
      match root.at_path base p with
      | some (Tree.dir _) => some Stat.dir
      | some (Tree.file c) => some (Stat.reg c.length)
      | none => none := rfl

theorem mount_opendir (os0 : OS) (base : List Nat) (root : Tree) (p : List Nat) :
    (mount os0 base root).opendir p =
      match root.at_path base p with
      | some (Tree.dir ch) => some ([46] :: [46, 46] :: ch.names)
      | _ => none := rfl

theorem mount_fopen_rb (os0 : OS) (base : List Nat) (root : Tree) (p : List Nat) :
    (mount os0 base root).fopen_rb p =
      match root.at_path base p with
      | some (Tree.dir _) => some []
      | some (Tree.file c) => some c
      | none => none := rfl

theorem mount_alloc (os0 : OS) (base : List Nat) (root : Tree) :
    (mount os0 base root).alloc = os0.alloc := rfl

theorem mount_fopen_wb (os0 : OS) (base : List Nat) (root : Tree) (ev : List Event)
    (p : List Nat) (h : root.holds base p = false) :
    (mount os0 base root).fopen_wb ev p = os0.fopen_wb ev p := by
  simp [mount, h]

/-- A path that is not `base` and does not start with `base/` names no node
of the tree mounted as `base`. -/
theorem holds_outside (root : Tree) (base p : List Nat) (h1 : (p == base) = false)
    (h2 : (base ++ [47]).isPrefixOf p = false) : root.holds base p = false := by
  unfold Tree.holds Tree.at_path
  rw [h1, h2]
  rfl

theorem tree_paths_self (t : Tree) (rel : List Nat) : rel ∈ t.paths rel := by
  cases t <;> simp [Tree.paths]

theorem snprintf_fits (base p : List Nat) (h : (base ++ [47] ++ p).length ≤ 1023) :
    snprintf (base ++ [47] ++ p) = base ++ [47] ++ p ∧ snprintf p = p := by
  unfold snprintf
  refine ⟨List.take_of_length_le h, List.take_of_length_le ?_⟩
  simp only [List.length_append] at h
  omega

/-- The two pseudo-entries at the head of a listing are skipped. -/
theorem walk_loop_dots (os : OS) (recurse : List Nat → Globals → Except Abort Globals)
    (base rel : List Nat) (names : List (List Nat)) (g : Globals) :
    walk_loop os recurse base rel ([46] :: [46, 46] :: names) g =
      walk_loop os recurse base rel names g := by
  simp [walk_loop]

/-- The loop of `walk_dir` over the entries `f` of the directory `comps` of a
mounted tree appends the regular files below them to the catalog. -/
theorem walk_loop_forest (os0 : OS) (base : List Nat) (root : Tree)
    (halloc : ∀ n, os0.alloc n = true) :
    ∀ (f whole : Forest) (fuel : Nat) (comps : List (List Nat)) (g : Globals),
      (∀ c ∈ comps, c ≠ [] ∧ 47 ∉ c) →
      root.find comps = some (Tree.dir whole) →
      (∀ n t, f.child n = some t → whole.child n = some t) →
      f.WF → f.depth ≤ fuel →
      (∀ p ∈ f.paths (rel_of comps), (base ++ [47] ++ p).length ≤ 1023) →
      ∃ g1, walk_loop (mount os0 base root) (walk_dir (mount os0 base root) fuel base) base
            (rel_of comps) f.names g = .ok g1 ∧
          g.extends_by g1 ((f.files (rel_of comps)).map entry_of)
  | Forest.nil, _, _, _, g, _, _, _, _, _, _ => ⟨g, rfl, extends_by_refl g⟩
  | Forest.cons n t more, whole, fuel, comps, g, hv, hD, hsub, hwf, hfuel, hfit => by
    obtain ⟨⟨hn1, hn2, hn3, hn4, hn5⟩, hdist, htwf, hmwf⟩ := hwf
    have hcne : ∀ c ∈ comps, c ≠ [] := fun c hc => (hv c hc).1
    have hrel : rel_join (rel_of comps) n = rel_of (comps ++ [n]) := rel_join_rel_of comps n hcne
    have hv' : ∀ c ∈ comps ++ [n], c ≠ [] ∧ 47 ∉ c := by
      intro c hc
      rcases List.mem_append.mp hc with hc | hc
      · exact hv c hc
      · rw [List.mem_singleton] at hc; subst hc; exact ⟨hn1, hn2⟩
    have hfitn : (base ++ [47] ++ rel_join (rel_of comps) n).length ≤ 1023 :=
      hfit _ (by simp only [Forest.paths, List.mem_append]
                 exact Or.inl (tree_paths_self t _))
    obtain ⟨hs1, hs2⟩ := snprintf_fits base _ hfitn
    have hchild : whole.child n = some t := hsub n t (by simp [Forest.child])
    have hfind : root.find (comps ++ [n]) = some t := by
      rw [find_append, hD]; exact hchild
    have hat : root.at_path base (base ++ [47] ++ rel_join (rel_of comps) n) = some t := by
      rw [hrel, at_path_rel_of root base _ hv', hfind]
    have hsub' : ∀ n1 t1, more.child n1 = some t1 → whole.child n1 = some t1 := by
      intro n1 t1 h1
      apply hsub
      have hne : n ≠ n1 := by
        intro e; subst e; rw [hdist] at h1; exact absurd h1 (by simp)
      simp [Forest.child, hne, h1]
    have hfuel' : more.depth ≤ fuel := by
      simp only [Forest.depth] at hfuel; omega
    have hfit' : ∀ p ∈ more.paths (rel_of comps), (base ++ [47] ++ p).length ≤ 1023 :=
      fun p hp => hfit p (by simp only [Forest.paths, List.mem_append]; exact Or.inr hp)
    have hstep : ∀ g0, walk_loop (mount os0 base root)
        (walk_dir (mount os0 base root) fuel base) base (rel_of comps)
        (n :: more.names) g0 =
        match (match (mount os0 base root).stat (base ++ [47] ++ rel_join (rel_of comps) n) with
          | none => Except.ok g0
          | some Stat.dir =>
            walk_dir (mount os0 base root) fuel base (rel_join (rel_of comps) n) g0
          | some (Stat.reg st_size) =>
            add_entry (mount os0 base root) g0 (rel_join (rel_of comps) n) (st_size % 2 ^ 32)
          | some Stat.other => Except.ok g0) with
        | .error a => .error a
        | .ok g1 => walk_loop (mount os0 base root)
            (walk_dir (mount os0 base root) fuel base) base (rel_of comps) more.names g1 := by
      intro g0
      conv_lhs => unfold walk_loop
      have hj : rel_of comps ++ (if rel_of comps ≠ [] then [47] else []) ++ n
          = rel_join (rel_of comps) n := rfl
      simp only [hn4, hn5, or_self, if_false, hj, hs1, hs2]
      cases (mount os0 base root).stat (base ++ [47] ++ rel_join (rel_of comps) n) with
      | none => rfl
      | some s => cases s <;> rfl
    simp only [Forest.names]
    rw [hstep, mount_stat, hat]
    cases t with
    | file c =>
      simp only
      obtain ⟨g1, hadd, hext⟩ := add_entry_extends (mount os0 base root)
        (by rw [mount_alloc]; exact halloc) g (rel_join (rel_of comps) n) (c.length % 2 ^ 32)
      rw [hadd]
      simp only
      obtain ⟨g2, hloop, hext2⟩ := walk_loop_forest os0 base root halloc more whole fuel comps g1
        hv hD hsub' hmwf hfuel' hfit'
      refine ⟨g2, hloop, ?_⟩
      have := extends_by_trans g g1 g2 _ _ hext hext2
      simpa [Forest.files, Tree.files, entry_of] using this
    | dir ch =>
      simp only
      have hdepth : ch.depth + 1 ≤ fuel := by
        simp only [Forest.depth, Tree.depth] at hfuel; omega
      obtain ⟨fuel1, hf1⟩ : ∃ fuel1, fuel = fuel1 + 1 := ⟨fuel - 1, by omega⟩
      have hwd : walk_dir (mount os0 base root) fuel base (rel_join (rel_of comps) n) g =
          walk_loop (mount os0 base root) (walk_dir (mount os0 base root) fuel1 base) base
            (rel_join (rel_of comps) n) ch.names g := by
        rw [hf1]
        conv_lhs => unfold walk_dir
        have hne : base ++ [47] ++ rel_join (rel_of comps) n ≠ [] := by simp
        simp only [hs1, hne, ne_eq, not_false_eq_true, if_true, mount_opendir, hat]
        exact walk_loop_dots _ _ _ _ _ _
      rw [hwd, hrel]
      obtain ⟨g1, hsubwalk, hext⟩ := walk_loop_forest os0 base root halloc ch ch fuel1
        (comps ++ [n]) g hv' hfind (fun _ _ h => h) htwf (by omega)
        (fun p hp => hfit p (by
          simp only [Forest.paths, Tree.paths, List.mem_append, List.mem_cons]
          rw [hrel]; exact Or.inl (Or.inr hp)))
      rw [hsubwalk]
      simp only
      obtain ⟨g2, hloop, hext2⟩ := walk_loop_forest os0 base root halloc more whole fuel comps g1
        hv hD hsub' hmwf hfuel' hfit'
      refine ⟨g2, hloop, ?_⟩
      have := extends_by_trans g g1 g2 _ _ hext hext2
      simpa [Forest.files, Tree.files, hrel] using this

/-! ## Packing a mounted tree -/

theorem rel_of_no_nul (comps : List (List Nat)) (h : ∀ c ∈ comps, 0 ∉ c) : 0 ∉ rel_of comps := by
  induction comps with
  | nil => simp [rel_of_nil]
  | cons c cs ih =>
    cases cs with
    | nil => rw [rel_of_single]; exact h c (by simp)
    | cons d ds =>
      rw [rel_of_cons_cons]
      have h1 := h c (by simp)
      have h2 := ih (fun x hx => h x (by simp [hx]))
      simp only [List.mem_append, List.mem_singleton, not_or]
      exact ⟨⟨h1, by decide⟩, h2⟩

/-- What a mounted tree presents for each of its regular files. -/
theorem forest_files_facts (base : List Nat) (root : Tree) :
    ∀ (f whole : Forest) (comps : List (List Nat)),
      (∀ c ∈ comps, c ≠ [] ∧ 47 ∉ c) → (∀ c ∈ comps, 0 ∉ c) →
      root.find comps = some (Tree.dir whole) →
      (∀ n t, f.child n = some t → whole.child n = some t) →
      f.WF →
      ∀ pc ∈ f.files (rel_of comps),
        root.at_path base (base ++ [47] ++ pc.1) = some (Tree.file pc.2) ∧
        0 ∉ pc.1 ∧ pc.1 ∈ f.paths (rel_of comps) ∧ ∀ b ∈ pc.2, b < 256
  | Forest.nil, _, _, _, _, _, _, _, pc, hpc => by simp [Forest.files] at hpc
  | Forest.cons n t more, whole, comps, hv, hz, hD, hsub, hwf, pc, hpc => by
    obtain ⟨⟨hn1, hn2, hn3, hn4, hn5⟩, hdist, htwf, hmwf⟩ := hwf
    have hcne : ∀ c ∈ comps, c ≠ [] := fun c hc => (hv c hc).1
    have hrel : rel_join (rel_of comps) n = rel_of (comps ++ [n]) := rel_join_rel_of comps n hcne
    have hv' : ∀ c ∈ comps ++ [n], c ≠ [] ∧ 47 ∉ c := by
      intro c hc
      rcases List.mem_append.mp hc with hc | hc
      · exact hv c hc
      · rw [List.mem_singleton] at hc; subst hc; exact ⟨hn1, hn2⟩
    have hz' : ∀ c ∈ comps ++ [n], 0 ∉ c := by
      intro c hc
      rcases List.mem_append.mp hc with hc | hc
      · exact hz c hc
      · rw [List.mem_singleton] at hc; subst hc; exact hn3
    have hchild : whole.child n = some t := hsub n t (by simp [Forest.child])
    have hfind : root.find (comps ++ [n]) = some t := by
      rw [find_append, hD]; exact hchild
    have hsub' : ∀ n1 t1, more.child n1 = some t1 → whole.child n1 = some t1 := by
      intro n1 t1 h1
      apply hsub
      have hne : n ≠ n1 := by
        intro e; subst e; rw [hdist] at h1; exact absurd h1 (by simp)
      simp [Forest.child, hne, h1]
    simp only [Forest.files, List.mem_append] at hpc
    rcases hpc with hpc | hpc
    · cases t with
      | file c =>
        simp only [Tree.files, List.mem_singleton] at hpc
        subst hpc
        refine ⟨?_, ?_, ?_, ?_⟩
        · simp only
          rw [hrel, at_path_rel_of root base _ hv', hfind]
        · simp only; rw [hrel]; exact rel_of_no_nul _ hz'
        · simp [Forest.paths, Tree.paths]
        · exact htwf
      | dir ch =>
        simp only [Tree.files] at hpc
        rw [hrel] at hpc
        obtain ⟨h1, h2, h3, h4⟩ := forest_files_facts base root ch ch (comps ++ [n]) hv' hz'
          hfind (fun _ _ h => h) htwf pc hpc
        refine ⟨h1, h2, ?_, h4⟩
        simp only [Forest.paths, Tree.paths, List.mem_append, List.mem_cons]
        rw [hrel]
        exact Or.inl (Or.inr h3)
    · obtain ⟨h1, h2, h3, h4⟩ := forest_files_facts base root more whole comps hv hz hD hsub'
        hmwf pc hpc
      refine ⟨h1, h2, ?_, h4⟩
      simp only [Forest.paths, List.mem_append]
      exact Or.inr h3

theorem init_tables_entries (g : Globals) : (init_tables g).entries = g.entries := by
  unfold init_tables
  split <;> rfl

/-- The walk from the root of a mounted tree. -/
theorem walk_dir_root (os0 : OS) (base : List Nat) (top : Forest)
    (halloc : ∀ n, os0.alloc n = true) (fuel : Nat) (g : Globals)
    (hwf : top.WF) (hfuel : top.depth < fuel)
    (hfit : ∀ p ∈ (Tree.dir top).paths [], (base ++ [47] ++ p).length ≤ 1023) :
    ∃ g1, walk_dir (mount os0 base (Tree.dir top)) fuel base [] g = .ok g1 ∧
      g.extends_by g1 ((top.files []).map entry_of) := by
  obtain ⟨fuel1, hf1⟩ : ∃ fuel1, fuel = fuel1 + 1 := ⟨fuel - 1, by omega⟩
  have hat : (Tree.dir top).at_path base (base ++ [47] ++ []) = some (Tree.dir top) := by
    have := at_path_rel_of (Tree.dir top) base [] (by simp)
    rw [rel_of_nil] at this
    rw [this]; rfl
  have hs : snprintf (base ++ [47] ++ []) = base ++ [47] ++ [] :=
    (snprintf_fits base [] (hfit [] (by simp [Tree.paths]))).1
  have hwd : walk_dir (mount os0 base (Tree.dir top)) fuel base [] g =
      walk_loop (mount os0 base (Tree.dir top))
        (walk_dir (mount os0 base (Tree.dir top)) fuel1 base) base [] top.names g := by
    rw [hf1]
    conv_lhs => unfold walk_dir
    have hne : base ++ [47] ++ [] ≠ [] := by simp
    simp only [hs, hne, ne_eq, not_false_eq_true, if_true, mount_opendir, hat]
    exact walk_loop_dots _ _ _ _ _ _
  rw [hwd]
  have h := walk_loop_forest os0 base (Tree.dir top) halloc top top fuel1 [] g (by simp) rfl
    (fun _ _ h => h) hwf (by omega)
    (fun p hp => hfit p (by simp only [Tree.paths, List.mem_cons]; exact Or.inr hp))
  rw [rel_of_nil] at h
  exact h

/-- The run of `tcf_pack` once the walk has produced the catalog of the files
`fs`, each readable with its content. -/
theorem tcf_pack_catalog (os : OS) (fuel : Nat) (g g2 : Globals) (input_dir out_path : List Nat)
    (fs : List (List Nat × List Nat))
    (hwalk : walk_dir os fuel input_dir [] (init_tables g) = .ok g2)
    (hent : g2.entries = fs.map entry_of)
    (hopen : os.fopen_wb [] out_path = true)
    (hread : ∀ pc ∈ fs, os.fopen_rb (snprintf (input_dir ++ [47] ++ pc.1)) = some pc.2) :
    tcf_pack os fuel g input_dir out_path =
      .ok { status := TCF_OK
            globals := { g2 with entries := with_offsets (fs.map entry_of) 0 }
            out := some (make_header ((18 + (payload_of g2.shift_table fs).length) % 2 ^ 32)
              fs.length ++ payload_of g2.shift_table fs ++
              ((with_offsets (fs.map entry_of) 0).map index_record).flatten ++ [69, 79, 70]) } := by
  unfold tcf_pack
  simp only [hwalk, hopen, Bool.true_eq_false, if_false, hent,
    pack_files_eq os g2.shift_table input_dir fs 0 hread, with_offsets_length, List.length_map]

/-- A copy that starts beyond the payload reads out of bounds. -/
theorem copy_loop_out_of_bounds (table payload : List Nat) (fuel pos remaining : Nat)
    (hf : 0 < fuel) (hr : 0 < remaining) (hpos : payload.length ≤ pos) (hp : pos < 2 ^ 32) :
    copy_loop table payload fuel pos remaining = .error .out_of_bounds := by
  obtain ⟨fuel1, rfl⟩ : ∃ fuel1, fuel = fuel1 + 1 := ⟨fuel - 1, by omega⟩
  unfold copy_loop
  have h0 : remaining ≠ 0 := by omega
  simp only [h0, if_false]
  have hchunk : ∀ chunk, 0 < chunk →
      decode_chunk table payload pos chunk 0 = .error .out_of_bounds := by
    intro chunk hc
    obtain ⟨c1, rfl⟩ : ∃ c1, chunk = c1 + 1 := ⟨chunk - 1, by omega⟩
    unfold decode_chunk
    rw [Nat.add_zero, Nat.mod_eq_of_lt hp, List.get?_eq_getElem?,
      List.getElem?_eq_none (by omega)]
  rw [hchunk _ (by split <;> first | decide | omega)]

/-- The record loop on the index of `traversal_archive`, in any environment:
after the unsafe record is skipped the loop reads a record with an empty path,
offset 65536 and size 131072 out of the bytes left behind. -/
theorem traversal_loop (os : OS) (table : List Nat) :
    extract_loop os table [5] [100, 115, 116] 2
        (index_record
          { path := [46, 46, 47, 46, 46, 47, 101, 116, 99, 47, 112, 97, 115, 115, 119, 100],
            offset := 0, size := 1 } ++
          (index_record { path := [111, 107], offset := 0, size := 1 } ++ [69, 79, 70])) [] =
      if os.alloc 17 = false then .ok (TCF_ERR_MEMORY, [])
      else if os.alloc 1 = false then .ok (TCF_ERR_MEMORY, [])
      else if os.fopen_wb [Event.mkdir [100, 115, 116]] [100, 115, 116, 47] = false then
        .ok ( TCF_ERR_IO, [Event.mkdir [100, 115, 116]])
      else .error .out_of_bounds := by
  rw [extract_loop_on_record os table [5] [100, 115, 116] 1 _ _ [] (by decide) (by decide)
    (by decide) (by decide)]
  have e8 : put_u32 0 ++ put_u32 1 ++
      (index_record { path := [111, 107], offset := 0, size := 1 } ++ [69, 79, 70]) =
      index_record { path := [], offset := 65536, size := 131072 } ++
        [111, 107, 0, 0, 0, 0, 1, 0, 0, 0, 69, 79, 70] := by decide
  have hd1 : has_dotdot [46, 46, 47, 46, 46, 47, 101, 116, 99, 47, 112, 97, 115, 115, 119, 100]
      = true := by decide
  have hd2 : has_dotdot [] = false := by decide
  have hs : snprintf ([100, 115, 116] ++ [47] ++ []) = [100, 115, 116, 47] := by decide
  have hm : (ensure_dirs [100, 115, 116, 47]).2.map Event.mkdir = [Event.mkdir [100, 115, 116]] := by
    decide
  simp only [e8, hd1, if_true, List.length_cons, List.length_nil]
  rw [extract_loop_on_record os table [5] [100, 115, 116] 0 _ _ [] (by decide) (by decide)
    (by decide) (by decide)]
  simp only [hd2, hs, hm, List.nil_append, List.length_nil, Bool.false_eq_true, if_false,
    copy_loop_out_of_bounds table [5] 131072 65536 131072 (by decide) (by decide) (by decide)
      (by decide)]

/-- Extraction of `traversal_archive` in any environment: never `TCF_OK`. -/
theorem traversal_never_ok (os : OS) (g : Globals) (r : ExtractResult)
    (hopen : os.fopen_rb [111] = some traversal_archive)
    (hr : tcf_extract os g [111] [100, 115, 116] = .ok r) : r.status ≠ TCF_OK := by
  have e1 : (traversal_archive.take 18).length = 18 := by decide
  have e2 : (traversal_archive.take 18).take 3 = TCF_MAGIC := by decide
  have e3 : crc32 ((traversal_archive.take 18).take 14) = get_u32 (traversal_archive.take 18) 14 := by
    decide!
  have e4 : (get_u32 (traversal_archive.take 18) 6 + 2 ^ 64 - 18) % 2 ^ 64 = 1 := by decide
  have e5 : get_u32 (traversal_archive.take 18) 10 = 2 := by decide
  have e6 : (traversal_archive.drop 18).take 1 = [5] := by decide
  have e7 : (traversal_archive.drop 18).drop 1 =
      index_record
        { path := [46, 46, 47, 46, 46, 47, 101, 116, 99, 47, 112, 97, 115, 115, 119, 100],
          offset := 0, size := 1 } ++
      (index_record { path := [111, 107], offset := 0, size := 1 } ++ [69, 79, 70]) := by decide
  unfold tcf_extract at hr
  simp only [hopen, e1, e2, e3, e4, e5, e6, e7, ne_eq, not_true_eq_false, if_false,
    List.length_singleton, traversal_loop] at hr
  cases h1 : os.alloc 1 <;> cases h17 : os.alloc 17 <;>
    cases hw : os.fopen_wb [Event.mkdir [100, 115, 116]] [100, 115, 116, 47] <;>
    simp only [h1, h17, hw, Bool.true_eq_false, Bool.false_eq_true, if_true, if_false,
      Except.ok.injEq, reduceCtorEq] at hr <;>
    first
    | (subst hr; exact (show TCF_ERR_MEMORY ≠ TCF_OK by decide))
    | (subst hr; exact (show TCF_ERR_IO ≠ TCF_OK by decide))

/-! ## Round trip and unsafe paths -/

set_option maxRecDepth 100000 in
/-- C2 fails on `traversal_archive`, whose index holds `../../etc/passwd`
followed by the safe record `ok`: the unsafe record is skipped with its offset
and size left unread, the next iteration reads a record with an empty path out
of those bytes, and the file `dst/ok` is never written.  Where `dst/` cannot
be opened for writing `tcf_extract` returns `TCF_ERR_IO`; in no environment
does it return `TCF_OK`.  The same archive without the unsafe record extracts
`dst/ok` with content "A". -/
theorem C2_unsafe_record_desync :
    (tcf_extract (OS.plain.with_file [111] traversal_archive) Globals.start [111]
        [100, 115, 116]).map ExtractResult.outcome =
      .ok ( TCF_ERR_IO, [Event.mkdir [100, 115, 116]]) ∧
    (∀ (os : OS) (g : Globals) (r : ExtractResult),
      os.fopen_rb [111] = some traversal_archive →
      tcf_extract os g [111] [100, 115, 116] = .ok r → r.status ≠ TCF_OK) ∧
    (tcf_extract (OS.plain.with_file [111] safe_archive) Globals.start [111]
        [100, 115, 116]).map ExtractResult.outcome =
      .ok (TCF_OK, [Event.mkdir [100, 115, 116],
                    Event.file [100, 115, 116, 47, 111, 107] [65]]) := by
  refine ⟨by decide!, fun os g r h1 h2 => traversal_never_ok os g r h1 h2, by decide!⟩

/-! ## Header validation -/

/-- C3, amended. Header tamper detection: flipping one bit of bytes 0..13 of
an archive written by `tcf_pack` makes `tcf_extract` write nothing and return
`TCF_ERR_CRC` when the bit lies in bytes 3..13, and `TCF_ERR_FORMAT` when it
lies in the magic, bytes 0..2. -/
theorem C3_header_tamper (os : OS) (fuel : Nat) (g : Globals)
    (input_dir out_path : List Nat) (r : PackResult) (archive : List Nat)
    (h : tcf_pack os fuel g input_dir out_path = .ok r) (hs : r.status = TCF_OK)
    (hout : r.out = some archive) (k : Nat) (hk : k < 112)
    (os1 : OS) (g1 : Globals) (tcf_path output_dir : List Nat)
    (hopen : os1.fopen_rb tcf_path = some (flip_bit archive k)) :
    tcf_extract os1 g1 tcf_path output_dir =
      .ok { status := if k < 24 then TCF_ERR_FORMAT else TCF_ERR_CRC,
            globals := init_tables g1, events := [] } := by
  obtain ⟨g2, payload, _, _, _, _, hout2⟩ :=
    tcf_pack_ok_shape os fuel g input_dir out_path r h hs
  rw [hout2] at hout
  simp only [Option.some.injEq, List.append_assoc] at hout
  subst hout
  obtain ⟨hlen, h14, hcrc, hlow, hhigh⟩ := flipped_header
    ((18 + payload.length) % 2 ^ 32) r.globals.entries.length
    (payload ++ ((r.globals.entries.map index_record).flatten ++ [69, 79, 70])) k hk
  by_cases hk3 : k < 24
  · rw [if_pos hk3]
    exact tcf_extract_format os1 g1 tcf_path output_dir _ hopen (Or.inr (hlow hk3))
  · rw [if_neg hk3]
    refine tcf_extract_crc os1 g1 tcf_path output_dir _ hopen hlen (hhigh (by omega)) ?_
    rw [h14, hcrc]
    exact crc32_flip_bit _ k (header14_lt _ _) (by rw [header14_length]; omega)

/-- C3, amended, at the scenario archive with bit 40 flipped (byte 5). -/
theorem C3_header_tamper_witness :
    tcf_extract (OS.plain.with_file [116] (flip_bit scenario_archive 40)) Globals.start
        [116] [100] =
      .ok { status := if 40 < 24 then TCF_ERR_FORMAT else TCF_ERR_CRC,
            globals := init_tables Globals.start, events := [] } :=
  C3_header_tamper scenario_os 2 Globals.start [105, 110] [111, 117, 116] scenario_packed
    scenario_archive scenario_pack rfl rfl 40 (by decide)
    (OS.plain.with_file [116] (flip_bit scenario_archive 40)) Globals.start [116] [100] rfl

set_option maxRecDepth 100000 in
/-- C3 as stated fails for the bits of the magic: the scenario archive with
bit 0 flipped makes `tcf_extract` return `TCF_ERR_FORMAT`, not `TCF_ERR_CRC`. -/
theorem C3_counterexample :
    tcf_pack scenario_os 2 Globals.start [105, 110] [111, 117, 116] = .ok scenario_packed ∧
    scenario_packed.status = TCF_OK ∧ scenario_packed.out = some scenario_archive ∧
    (tcf_extract (OS.plain.with_file [116] (flip_bit scenario_archive 0)) Globals.start
        [116] [100]).map ExtractResult.outcome = .ok (TCF_ERR_FORMAT, []) ∧
    TCF_ERR_FORMAT ≠ TCF_ERR_CRC := by
  refine ⟨scenario_pack, rfl, rfl, by decide!, by decide⟩

/-- C4. Magic/format rejection: when the archive file is shorter than 18 bytes
or its first three bytes are not "TCF", `tcf_extract` returns
`TCF_ERR_FORMAT` and writes nothing, whatever the other bytes are. -/
theorem C4_format_rejection (os : OS) (g : Globals) (tcf_path output_dir archive : List Nat)
    (hopen : os.fopen_rb tcf_path = some archive)
    (hbad : archive.length < 18 ∨ archive.take 3 ≠ TCF_MAGIC) :
    tcf_extract os g tcf_path output_dir =
      .ok { status := TCF_ERR_FORMAT, globals := init_tables g, events := [] } :=
  tcf_extract_format os g tcf_path output_dir archive hopen hbad

/-- C4 at a 20-byte file that starts with "TCG". -/
theorem C4_format_rejection_witness :
    tcf_extract (OS.plain.with_file [97] ([84, 67, 71] ++ List.replicate 17 0)) Globals.start
        [97] [100] =
      .ok { status := TCF_ERR_FORMAT, globals := init_tables Globals.start, events := [] } :=
  C4_format_rejection _ _ _ _ ([84, 67, 71] ++ List.replicate 17 0) rfl (Or.inr (by decide))

/-- C5. CRC check: `tcf_extract` returns `TCF_ERR_CRC` exactly when the input
has at least 18 bytes, starts with "TCF", and the little-endian 32-bit value
at bytes 14..17 differs from `crc32` of bytes 0..13; then nothing is written. -/
theorem C5_crc_check (os : OS) (g : Globals) (tcf_path output_dir archive : List Nat)
    (hopen : os.fopen_rb tcf_path = some archive) (hbytes : ∀ b ∈ archive, b < 256) :
    ((∃ r, tcf_extract os g tcf_path output_dir = .ok r ∧ r.status = TCF_ERR_CRC) ↔
      (18 ≤ archive.length ∧ archive.take 3 = TCF_MAGIC ∧
        le32_spec archive 14 ≠ crc32 (archive.take 14))) ∧
    (∀ r, tcf_extract os g tcf_path output_dir = .ok r → r.status = TCF_ERR_CRC →
      r.events = []) := by
  have hspec := get_u32_eq_spec archive hbytes 14
  by_cases hlen : archive.length < 18
  · have h := tcf_extract_format os g tcf_path output_dir archive hopen (Or.inl hlen)
    rw [h]
    refine ⟨⟨fun ⟨r, hr, hs⟩ => ?_, fun hc => absurd hc.1 (by omega)⟩, fun r hr _ => ?_⟩
    · simp only [Except.ok.injEq] at hr; subst hr
      exact absurd hs (show TCF_ERR_FORMAT ≠ TCF_ERR_CRC by decide)
    · simp only [Except.ok.injEq] at hr; subst hr; rfl
  · by_cases hmagic : archive.take 3 = TCF_MAGIC
    · by_cases hcrc : crc32 (archive.take 14) = get_u32 archive 14
      · refine ⟨⟨fun ⟨r, hr, hs⟩ => ?_, fun hc => ?_⟩, fun r hr hs => ?_⟩
        · rcases tcf_extract_after_header os g tcf_path output_dir archive hopen (by omega)
            hmagic hcrc r hr with h | h | h <;> rw [h] at hs <;> exact absurd hs (by decide)
        · exact absurd (hspec ▸ hcrc).symm hc.2.2
        · rcases tcf_extract_after_header os g tcf_path output_dir archive hopen (by omega)
            hmagic hcrc r hr with h | h | h <;> rw [h] at hs <;> exact absurd hs (by decide)
      · have h := tcf_extract_crc os g tcf_path output_dir archive hopen (by omega) hmagic hcrc
        rw [h]
        refine ⟨⟨fun _ => ⟨by omega, hmagic, fun e => hcrc (by rw [hspec, e])⟩,
          fun _ => ⟨_, rfl, rfl⟩⟩, fun r hr _ => ?_⟩
        simp only [Except.ok.injEq] at hr; subst hr; rfl
    · have h := tcf_extract_format os g tcf_path output_dir archive hopen (Or.inr hmagic)
      rw [h]
      refine ⟨⟨fun ⟨r, hr, hs⟩ => ?_, fun hc => absurd hc.2.1 hmagic⟩, fun r hr _ => ?_⟩
      · simp only [Except.ok.injEq] at hr; subst hr
        exact absurd hs (show TCF_ERR_FORMAT ≠ TCF_ERR_CRC by decide)
      · simp only [Except.ok.injEq] at hr; subst hr; rfl

/-- C5 at an 18-byte file with the magic and a zero CRC field. -/
theorem C5_crc_check_witness :
    ((∃ r, tcf_extract (OS.plain.with_file [97] ([84, 67, 70] ++ List.replicate 15 0))
        Globals.start [97] [100] = .ok r ∧ r.status = TCF_ERR_CRC) ↔
      (18 ≤ ([84, 67, 70] ++ List.replicate 15 0).length ∧
        ([84, 67, 70] ++ List.replicate 15 0).take 3 = TCF_MAGIC ∧
        le32_spec ([84, 67, 70] ++ List.replicate 15 0) 14 ≠
          crc32 (([84, 67, 70] ++ List.replicate 15 0).take 14))) ∧
    (∀ r, tcf_extract (OS.plain.with_file [97] ([84, 67, 70] ++ List.replicate 15 0))
        Globals.start [97] [100] = .ok r → r.status = TCF_ERR_CRC → r.events = []) :=
  C5_crc_check _ _ _ _ ([84, 67, 70] ++ List.replicate 15 0) rfl (by decide)

/-! ## Cipher and CRC -/

/-- C6. Cipher involution: after `init_tables`, for every byte value `b`,
`unshift_table[shift_table[b]] == b`. -/
theorem C6_cipher_involution (g : Globals) (h : TablesOK g) (b : Nat) (hb : b < 256) :
    lookup (init_tables g).unshift_table (lookup (init_tables g).shift_table b) = b := by
  rw [lookup_shift g h b hb, lookup_unshift g h _ (shift_value_lt b)]
  exact unshift_shift_value b hb

/-- C6 at program start and the byte 200. -/
theorem C6_cipher_involution_witness :
    lookup (init_tables Globals.start).unshift_table
      (lookup (init_tables Globals.start).shift_table 200) = 200 :=
  C6_cipher_involution Globals.start tablesOK_start 200 (by decide)

/-- C7. After `init_tables`, `shift_table[b]` is `b` rotated left by 2 bits
within 8 bits and `unshift_table[b]` is `b` rotated right by 2 bits, for every
byte `b`; a second call to `init_tables` changes nothing. -/
theorem C7_tables_are_rotations (g : Globals) (h : TablesOK g) :
    (∀ b, b < 256 →
      lookup (init_tables g).shift_table b = rotl8_spec b 2 ∧
      lookup (init_tables g).unshift_table b = rotr8_spec b 2) ∧
    init_tables (init_tables g) = init_tables g := by
  refine ⟨fun b hb => ⟨?_, ?_⟩, init_tables_idem g⟩
  · rw [lookup_shift g h b hb]; exact shift_value_spec b hb
  · rw [lookup_unshift g h b hb]; exact unshift_value_spec b hb

/-- C7 at program start. -/
theorem C7_tables_are_rotations_witness :
    (∀ b, b < 256 →
      lookup (init_tables Globals.start).shift_table b = rotl8_spec b 2 ∧
      lookup (init_tables Globals.start).unshift_table b = rotr8_spec b 2) ∧
    init_tables (init_tables Globals.start) = init_tables Globals.start :=
  C7_tables_are_rotations Globals.start tablesOK_start

/-- C8. `crc32` is the standard reflected CRC-32 (polynomial `0xEDB88320`,
initial value `0xFFFFFFFF`, final complement): on every byte sequence it
equals the bit-by-bit reference; the CRC of the empty sequence is 0 and the
CRC of "123456789" is `0xCBF43926`. -/
theorem C8_crc32_standard (data : List Nat) (hd : ∀ b ∈ data, b < 256) :
    crc32 data = crc32_spec data ∧ crc32 [] = 0 ∧
    crc32 [49, 50, 51, 52, 53, 54, 55, 56, 57] = 0xCBF43926 :=
  ⟨crc32_eq_spec data hd, by decide, by decide!⟩

/-- C8 at the bytes of "TCF". -/
theorem C8_crc32_standard_witness :
    crc32 [84, 67, 70] = crc32_spec [84, 67, 70] ∧ crc32 [] = 0 ∧
    crc32 [49, 50, 51, 52, 53, 54, 55, 56, 57] = 0xCBF43926 :=
  C8_crc32_standard [84, 67, 70] (by decide)

/-- C9. CRC single-bit sensitivity: flipping any one of the 112 bits of a
14-byte sequence changes its `crc32`. -/
theorem C9_crc_single_bit (h : List Nat) (hlen : h.length = 14) (hb : ∀ b ∈ h, b < 256)
    (k : Nat) (hk : k < 112) : crc32 (flip_bit h k) ≠ crc32 h :=
  crc32_flip_bit h k hb (by omega)

/-- C9 at the header prefix of an empty archive, bit 37. -/
theorem C9_crc_single_bit_witness :
    crc32 (flip_bit [84, 67, 70, 1, 0, 0, 18, 0, 0, 0, 0, 0, 0, 0] 37) ≠
      crc32 [84, 67, 70, 1, 0, 0, 18, 0, 0, 0, 0, 0, 0, 0] :=
  C9_crc_single_bit [84, 67, 70, 1, 0, 0, 18, 0, 0, 0, 0, 0, 0, 0] rfl (by decide) 37 (by decide)

/-! ## The header written by `tcf_pack` -/

/-- C10. Header invariant: the archive of a successful `tcf_pack` is an 18-byte
header, the payload, the index records of the catalog and "EOF"; the header is
"TCF", 1, 0, 0, the index offset (18 plus the payload length, as `uint32_t`)
in little-endian, the number of catalog entries modulo 2^32 in little-endian,
and `crc32` of the first 14 bytes in little-endian.  `tcf_extract` never
returns `TCF_ERR_FORMAT` or `TCF_ERR_CRC` on such an archive. -/
theorem C10_header_invariant (os : OS) (fuel : Nat) (g : Globals)
    (input_dir out_path : List Nat) (r : PackResult)
    (h : tcf_pack os fuel g input_dir out_path = .ok r) (hs : r.status = TCF_OK) :
    ∃ archive payload,
      r.out = some archive ∧
      archive = archive.take 18 ++ payload ++ (r.globals.entries.map index_record).flatten ++
        [69, 79, 70] ∧
      archive.take 18 = [84, 67, 70, 1, 0, 0] ++
        le_bytes_spec 4 ((18 + payload.length) % 2 ^ 32) ++
        le_bytes_spec 4 (r.globals.entries.length % 2 ^ 32) ++
        le_bytes_spec 4 (crc32 (archive.take 14)) ∧
      ∀ (os1 : OS) (g1 : Globals) (tcf_path output_dir : List Nat) (r1 : ExtractResult),
        os1.fopen_rb tcf_path = some archive →
        tcf_extract os1 g1 tcf_path output_dir = .ok r1 →
        r1.status ≠ TCF_ERR_FORMAT ∧ r1.status ≠ TCF_ERR_CRC := by
  obtain ⟨g2, payload, _, _, _, _, hout⟩ := tcf_pack_ok_shape os fuel g input_dir out_path r h hs
  refine ⟨_, payload, hout, ?_, ?_, ?_⟩
  · simp only [List.append_assoc]
    rw [List.take_append_of_le_length (by rw [make_header_length]),
      List.take_of_length_le (by rw [make_header_length])]
  · simp only [List.append_assoc]
    rw [List.take_append_of_le_length (by rw [make_header_length]),
      List.take_of_length_le (by rw [make_header_length]), make_header_take14]
    simp only [make_header, header14, ← put_u32_eq_spec, List.append_assoc]
    rfl
  · intro os1 g1 tcf_path output_dir r1 hopen hr
    simp only [List.append_assoc] at hopen
    have hcases := tcf_extract_after_header os1 g1 tcf_path output_dir _ hopen
      (by rw [List.length_append, make_header_length]; omega) (make_header_take3 _ _ _)
      (by rw [make_header_take14, make_header_crc]) r1 hr
    rcases hcases with e | e | e <;> rw [e] <;> decide

/-- C10 at the scenario archive. -/
theorem C10_header_invariant_witness :
    ∃ archive payload,
      scenario_packed.out = some archive ∧
      archive = archive.take 18 ++ payload ++
        (scenario_packed.globals.entries.map index_record).flatten ++ [69, 79, 70] ∧
      archive.take 18 = [84, 67, 70, 1, 0, 0] ++
        le_bytes_spec 4 ((18 + payload.length) % 2 ^ 32) ++
        le_bytes_spec 4 (scenario_packed.globals.entries.length % 2 ^ 32) ++
        le_bytes_spec 4 (crc32 (archive.take 14)) ∧
      ∀ (os1 : OS) (g1 : Globals) (tcf_path output_dir : List Nat) (r1 : ExtractResult),
        os1.fopen_rb tcf_path = some archive →
        tcf_extract os1 g1 tcf_path output_dir = .ok r1 →
        r1.status ≠ TCF_ERR_FORMAT ∧ r1.status ≠ TCF_ERR_CRC :=
  C10_header_invariant scenario_os 2 Globals.start [105, 110] [111, 117, 116] scenario_packed
    scenario_pack rfl

/-! ## `tcf_extract` behind a good header -/

/-- The run of `tcf_extract` once the header is complete, the magic matches
and the stored CRC agrees: allocation of the payload, the payload read, the
record loop. -/
theorem tcf_extract_good_header (os : OS) (g : Globals) (tcf_path output_dir archive : List Nat)
    (hopen : os.fopen_rb tcf_path = some archive)
    (hlen : 18 ≤ archive.length) (hmagic : archive.take 3 = TCF_MAGIC)
    (hcrc : crc32 (archive.take 14) = get_u32 archive 14) :
    tcf_extract os g tcf_path output_dir =
      if os.alloc ((get_u32 archive 6 + 2 ^ 64 - 18) % 2 ^ 64) = false then
        .ok { status := TCF_ERR_MEMORY, globals := init_tables g, events := [] }
      else if ((archive.drop 18).take ((get_u32 archive 6 + 2 ^ 64 - 18) % 2 ^ 64)).length ≠
          (get_u32 archive 6 + 2 ^ 64 - 18) % 2 ^ 64 then
        .ok { status := TCF_ERR_IO, globals := init_tables g, events := [] }
      else
        match extract_loop os (init_tables g).unshift_table
            ((archive.drop 18).take ((get_u32 archive 6 + 2 ^ 64 - 18) % 2 ^ 64)) output_dir
            (get_u32 archive 10)
            ((archive.drop 18).drop ((get_u32 archive 6 + 2 ^ 64 - 18) % 2 ^ 64)) [] with
        | .error a => .error a
        | .ok (status, ev) => .ok { status := status, globals := init_tables g, events := ev } := by
  unfold tcf_extract
  simp only [hopen]
  rw [if_neg (fun h => absurd ((take18_length archive).mp h) (by omega))]
  rw [take_take18 _ 3 (by omega), if_neg (fun h => h hmagic)]
  rw [take_take18 _ 14 (by omega), get_u32_take18 _ 14 (by omega),
    if_neg (fun h => h hcrc), get_u32_take18 _ 6 (by omega), get_u32_take18 _ 10 (by omega)]

theorem le32_spec_lt (h : List Nat) (hb : ∀ b ∈ h, b < 256) (i : Nat) : le32_spec h i < 2 ^ 32 := by
  rw [← get_u32_eq_spec h hb i]
  exact Nat.mod_lt _ (by decide)

/-! ## Runs that end without a return -/

theorem decode_chunk_abort (table payload : List Nat) (pos n : Nat) :
    ∀ j a, decode_chunk table payload pos n j = .error a → a = Abort.out_of_bounds := by
  induction n with
  | zero => intro j a h; simp [decode_chunk] at h
  | succ n ih =>
    intro j a h
    unfold decode_chunk at h
    split at h
    · simp only [Except.error.injEq] at h; exact h.symm
    · split at h
      · rename_i a1 h1
        simp only [Except.error.injEq] at h; subst h
        exact ih _ _ h1
      · simp at h

/-- With as much fuel as bytes to copy, the copy loop ends by itself or by a
read out of bounds. -/
theorem copy_loop_abort (table payload : List Nat) (fuel : Nat) :
    ∀ pos remaining a, remaining ≤ fuel →
      copy_loop table payload fuel pos remaining = .error a → a = Abort.out_of_bounds := by
  induction fuel with
  | zero =>
    intro pos remaining a hle h
    have : remaining = 0 := by omega
    subst this
    unfold copy_loop at h
    simp at h
  | succ fuel ih =>
    intro pos remaining a hle h
    unfold copy_loop at h
    by_cases h0 : remaining = 0
    · subst h0; simp at h
    · simp only [h0, if_false] at h
      have hb : BUFFER_SIZE = 8192 := rfl
      split at h
      · rename_i a1 h1
        simp only [Except.error.injEq] at h; subst h
        exact decode_chunk_abort _ _ _ _ _ _ h1
      · split at h
        · rename_i a1 h1
          simp only [Except.error.injEq] at h; subst h
          refine ih _ _ _ ?_ h1
          split <;> omega
        · simp at h

theorem extract_loop_abort (os : OS) (table payload output_dir : List Nat) (n : Nat) :
    ∀ (stream : List Nat) (ev : List Event) (a : Abort),
      extract_loop os table payload output_dir n stream ev = .error a →
      a = Abort.out_of_bounds := by
  induction n with
  | zero => intro stream ev a h; simp [extract_loop] at h
  | succ n ih =>
    intro stream ev a h
    simp only [extract_loop] at h
    split at h
    · simp at h
    · split at h
      · exact ih _ _ _ h
      · split at h
        · simp at h
        · split at h
          · rename_i a1 h1
            simp only [Except.error.injEq] at h; subst h
            exact copy_loop_abort _ _ _ _ _ _ (le_refl _) h1
          · exact ih _ _ _ h

theorem tcf_extract_abort (os : OS) (g : Globals) (tcf_path output_dir : List Nat) (a : Abort)
    (h : tcf_extract os g tcf_path output_dir = .error a) : a = Abort.out_of_bounds := by
  unfold tcf_extract at h
  simp only at h
  split at h
  · simp at h
  · split at h
    · simp at h
    · split at h
      · simp at h
      · split at h
        · simp at h
        · split at h
          · simp at h
          · split at h
            · simp at h
            · split at h
              · rename_i a1 h1
                simp only [Except.error.injEq] at h; subst h
                exact extract_loop_abort _ _ _ _ _ _ _ _ h1
              · simp at h

/-! ## The index behind a good header -/

set_option maxRecDepth 100000 in
/-- C15 fails: a truncated index is never reported as a format error.
`truncated_archive` has a valid header, its one-byte payload and a single
record, `ok` at offset 0, that ends after the offset field: the size reads as
0, the empty file `dst/ok` is written and `tcf_extract` returns `TCF_OK`; with
the size field 1 and the footer in place the same record gives `dst/ok` the
content "A".  Cut after the path length, the record takes its path from what
the allocation held: `dst/xx` is written where fresh memory holds `x`, and
the open of `dst/` fails with `TCF_ERR_IO` where it holds zeros.  Behind a
valid header no input makes `tcf_extract` return `TCF_ERR_FORMAT`. -/
theorem C15_truncated_index_accepted :
    crc32 (truncated_archive.take 14) = le32_spec truncated_archive 14 ∧
    le32_spec truncated_archive 6 = 19 ∧ le32_spec truncated_archive 10 = 1 ∧
    (truncated_archive.drop 19).length = 8 ∧
    (tcf_extract (OS.plain.with_file [111] truncated_archive) Globals.start [111]
        [100, 115, 116]).map ExtractResult.outcome =
      .ok (TCF_OK, [Event.mkdir [100, 115, 116],
                    Event.file [100, 115, 116, 47, 111, 107] []]) ∧
    (tcf_extract (OS.plain.with_file [111] (truncated_archive ++ [1, 0, 0, 0, 69, 79, 70]))
        Globals.start [111] [100, 115, 116]).map ExtractResult.outcome =
      .ok (TCF_OK, [Event.mkdir [100, 115, 116],
                    Event.file [100, 115, 116, 47, 111, 107] [65]]) ∧
    (tcf_extract (stale_os.with_file [111] (truncated_archive.take 21)) Globals.start [111]
        [100, 115, 116]).map ExtractResult.outcome =
      .ok (TCF_OK, [Event.mkdir [100, 115, 116],
                    Event.file [100, 115, 116, 47, 120, 120] []]) ∧
    (tcf_extract (OS.plain.with_file [111] (truncated_archive.take 21)) Globals.start [111]
        [100, 115, 116]).map ExtractResult.outcome =
      .ok ( TCF_ERR_IO, [Event.mkdir [100, 115, 116]]) ∧
    (∀ (os : OS) (g : Globals) (tcf_path output_dir archive : List Nat) (r : ExtractResult),
      os.fopen_rb tcf_path = some archive → 18 ≤ archive.length →
      archive.take 3 = TCF_MAGIC → crc32 (archive.take 14) = get_u32 archive 14 →
      tcf_extract os g tcf_path output_dir = .ok r → r.status ≠ TCF_ERR_FORMAT) := by
  refine ⟨by decide!, by decide!, by decide!, by decide!, by decide!, by decide!, by decide!,
    by decide!, ?_⟩
  intro os g tcf_path output_dir archive r hopen hlen hmagic hcrc hres
  have h := tcf_extract_after_header os g tcf_path output_dir archive hopen hlen hmagic hcrc
    r hres
  rcases h with e | e | e <;> rw [e] <;> decide

/-- C16. Short payload is an I/O error: when the header is valid, the index
offset is at least 18, the input is shorter than the index offset and the
payload buffer can be allocated, `tcf_extract` returns `TCF_ERR_IO` and
writes nothing. -/
theorem C16_short_payload (os : OS) (g : Globals) (tcf_path output_dir archive : List Nat)
    (hopen : os.fopen_rb tcf_path = some archive) (hbytes : ∀ b ∈ archive, b < 256)
    (hlen : 18 ≤ archive.length) (hmagic : archive.take 3 = TCF_MAGIC)
    (hcrc : crc32 (archive.take 14) = le32_spec archive 14)
    (hio : 18 ≤ le32_spec archive 6) (hshort : archive.length < le32_spec archive 6)
    (halloc : os.alloc (le32_spec archive 6 - 18) = true) :
    tcf_extract os g tcf_path output_dir =
      .ok { status := TCF_ERR_IO, globals := init_tables g, events := [] } := by
  have hlt := le32_spec_lt archive hbytes 6
  rw [← get_u32_eq_spec archive hbytes 14] at hcrc
  rw [← get_u32_eq_spec archive hbytes 6] at hio hshort halloc hlt
  rw [tcf_extract_good_header os g tcf_path output_dir archive hopen hlen hmagic hcrc]
  have hps : (get_u32 archive 6 + 2 ^ 64 - 18) % 2 ^ 64 = get_u32 archive 6 - 18 := by omega
  rw [hps, halloc]
  have hne : ((archive.drop 18).take (get_u32 archive 6 - 18)).length ≠ get_u32 archive 6 - 18 := by
    rw [List.length_take, List.length_drop]; omega
  simp only [Bool.true_eq_false, if_false, hne, ne_eq, not_false_eq_true, if_true]

set_option maxRecDepth 100000 in
/-- C16 at an archive whose header announces the index at offset 26 and whose
payload holds two bytes only. -/
theorem C16_short_payload_witness :
    tcf_extract (OS.plain.with_file [111] (make_header 26 2 ++ [5, 6])) Globals.start [111]
        [100, 115, 116] =
      .ok { status := TCF_ERR_IO, globals := init_tables Globals.start, events := [] } :=
  C16_short_payload _ _ _ _ (make_header 26 2 ++ [5, 6]) rfl (by decide!) (by decide!)
    (by decide!) (by decide!) (by decide!) (by decide!) rfl

/-- C20. Index offset below the header size: when the header is valid, the
index offset is below 18 and the input is shorter than 2^63 bytes, the payload
size is the index offset minus 18 modulo 2^64, at least 2^64 - 18, and
`tcf_extract` writes nothing and returns `TCF_ERR_MEMORY` when the buffer is
not allocated and `TCF_ERR_IO` when it is; it does not return `TCF_OK`. -/
theorem C20_index_offset_below_header (os : OS) (g : Globals)
    (tcf_path output_dir archive : List Nat)
    (hopen : os.fopen_rb tcf_path = some archive) (hbytes : ∀ b ∈ archive, b < 256)
    (hlen : 18 ≤ archive.length) (hmagic : archive.take 3 = TCF_MAGIC)
    (hcrc : crc32 (archive.take 14) = le32_spec archive 14)
    (hio : le32_spec archive 6 < 18) (hfile : archive.length < 2 ^ 63) :
    (le32_spec archive 6 + 2 ^ 64 - 18) % 2 ^ 64 = 2 ^ 64 - 18 + le32_spec archive 6 ∧
    2 ^ 64 - 18 ≤ (le32_spec archive 6 + 2 ^ 64 - 18) % 2 ^ 64 ∧
    tcf_extract os g tcf_path output_dir =
      .ok { status := if os.alloc ((le32_spec archive 6 + 2 ^ 64 - 18) % 2 ^ 64) = true
                      then TCF_ERR_IO else TCF_ERR_MEMORY,
            globals := init_tables g, events := [] } ∧
    (if os.alloc ((le32_spec archive 6 + 2 ^ 64 - 18) % 2 ^ 64) = true
      then TCF_ERR_IO else TCF_ERR_MEMORY) ≠ TCF_OK := by
  rw [← get_u32_eq_spec archive hbytes 14] at hcrc
  rw [← get_u32_eq_spec archive hbytes 6] at hio ⊢
  have hps : (get_u32 archive 6 + 2 ^ 64 - 18) % 2 ^ 64 = 2 ^ 64 - 18 + get_u32 archive 6 := by
    omega
  refine ⟨hps, by omega, ?_, by split <;> decide⟩
  rw [tcf_extract_good_header os g tcf_path output_dir archive hopen hlen hmagic hcrc]
  have hne : ((archive.drop 18).take ((get_u32 archive 6 + 2 ^ 64 - 18) % 2 ^ 64)).length ≠
      (get_u32 archive 6 + 2 ^ 64 - 18) % 2 ^ 64 := by
    rw [List.length_take, List.length_drop]; omega
  cases ha : os.alloc ((get_u32 archive 6 + 2 ^ 64 - 18) % 2 ^ 64) <;>
    simp only [hne, ne_eq, not_false_eq_true, if_true, Bool.true_eq_false, if_false,
      Bool.false_eq_true]

set_option maxRecDepth 100000 in
/-- C20 at an archive whose header announces the index at offset 4. -/
theorem C20_index_offset_below_header_witness :
    (le32_spec (make_header 4 0 ++ [69, 79, 70]) 6 + 2 ^ 64 - 18) % 2 ^ 64 =
      2 ^ 64 - 18 + le32_spec (make_header 4 0 ++ [69, 79, 70]) 6 ∧
    2 ^ 64 - 18 ≤ (le32_spec (make_header 4 0 ++ [69, 79, 70]) 6 + 2 ^ 64 - 18) % 2 ^ 64 ∧
    tcf_extract (OS.plain.with_file [111] (make_header 4 0 ++ [69, 79, 70])) Globals.start [111]
        [100, 115, 116] =
      .ok { status := if (OS.plain.with_file [111] (make_header 4 0 ++ [69, 79, 70])).alloc
                ((le32_spec (make_header 4 0 ++ [69, 79, 70]) 6 + 2 ^ 64 - 18) % 2 ^ 64) = true
              then TCF_ERR_IO else TCF_ERR_MEMORY,
            globals := init_tables Globals.start, events := [] } ∧
    (if (OS.plain.with_file [111] (make_header 4 0 ++ [69, 79, 70])).alloc
        ((le32_spec (make_header 4 0 ++ [69, 79, 70]) 6 + 2 ^ 64 - 18) % 2 ^ 64) = true
      then TCF_ERR_IO else TCF_ERR_MEMORY) ≠ TCF_OK :=
  C20_index_offset_below_header _ _ _ _ (make_header 4 0 ++ [69, 79, 70]) rfl (by decide!)
    (by decide!) (by decide!) (by decide!) (by decide!) (by decide!)

/-! ## The copy loop -/

/-- C18. Chunked decode equals the direct definition: for the payload read by
`tcf_extract` (its length is the index offset minus 18 as a `size_t`, from a
file below 2^63 bytes) and every record with `offset + size` within the
payload, the copy loop ends and the bytes written are the inverse cipher, the
rotation right by 2, applied bytewise to `payload[offset, offset + size)`, in
order; there are `size` of them. -/
theorem C18_chunked_decode (g : Globals) (hg : TablesOK g) (payload : List Nat)
    (index_offset offset size : Nat) (hio : index_offset < 2 ^ 32)
    (hpl : payload.length = (index_offset + 2 ^ 64 - 18) % 2 ^ 64)
    (hfile : payload.length < 2 ^ 63) (hbytes : ∀ b ∈ payload, b < 256)
    (h : offset + size ≤ payload.length) :
    copy_loop (init_tables g).unshift_table payload size offset size =
      .ok (((payload.drop offset).take size).map fun b => rotr8_spec b 2) ∧
    (((payload.drop offset).take size).map fun b => rotr8_spec b 2).length = size := by
  have hlt : payload.length < 2 ^ 32 := by omega
  refine ⟨?_, ?_⟩
  · rw [copy_loop_eq _ payload size offset size (le_refl _) h hlt]
    congr 1
    apply List.map_congr_left
    intro b hb
    have hb256 : b < 256 := hbytes b (List.mem_of_mem_drop (List.mem_of_mem_take hb))
    rw [lookup_unshift g hg b hb256]
    exact unshift_value_spec b hb256
  · rw [List.length_map, List.length_take, List.length_drop]
    omega

/-- C18 at a payload of 16385 bytes and a record of two full chunks. -/
theorem C18_chunked_decode_witness :
    copy_loop (init_tables Globals.start).unshift_table (List.replicate 16384 5 ++ [9])
        16384 0 16384 =
      .ok ((((List.replicate 16384 5 ++ [9]).drop 0).take 16384).map fun b => rotr8_spec b 2) ∧
    ((((List.replicate 16384 5 ++ [9]).drop 0).take 16384).map
      fun b => rotr8_spec b 2).length = 16384 :=
  C18_chunked_decode Globals.start tablesOK_start (List.replicate 16384 5 ++ [9]) 16403 0 16384
    (by decide) (by rw [List.length_append, List.length_replicate]; decide)
    (by rw [List.length_append, List.length_replicate]; decide)
    (by
      intro b hb
      rcases List.mem_append.mp hb with hb | hb
      · rw [List.eq_of_mem_replicate hb]; decide
      · rw [List.mem_singleton.mp hb]; decide)
    (by rw [List.length_append, List.length_replicate]; decide)

set_option maxRecDepth 100000 in
/-- C19 fails on `overrun_archive`, whose record `ok` has offset 1 and size 1
over a payload of one byte: the record is accepted, `dst/ok` is opened, and
the copy reads `payload[1]`, outside the buffer.  The same record with offset
0 is copied within bounds. -/
theorem C19_payload_read_out_of_bounds :
    crc32 (overrun_archive.take 14) = le32_spec overrun_archive 14 ∧
    le32_spec overrun_archive 6 - 18 = 1 ∧
    tcf_extract (OS.plain.with_file [111] overrun_archive) Globals.start [111]
        [100, 115, 116] = .error .out_of_bounds ∧
    (tcf_extract (OS.plain.with_file [111] safe_archive) Globals.start [111]
        [100, 115, 116]).map ExtractResult.outcome =
      .ok (TCF_OK, [Event.mkdir [100, 115, 116],
                    Event.file [100, 115, 116, 47, 111, 107] [65]]) := by
  refine ⟨by decide!, by decide!, by decide!, by decide!⟩

set_option maxRecDepth 100000 in
/-- C17 fails on `lagging_archive`: with the footer "EOF" and nothing behind
it `tcf_extract` writes the empty file `dst/xyz`; with eight more bytes behind
the same footer it writes `dst/xyz` holding "A".  The unsafe record `..` is
skipped with its offset and size unread, the next iteration takes a path
length of 20 from them, reads across the second record and the footer, and
takes offset and size from what follows the footer. -/
theorem C17_footer_read_after_skip :
    (tcf_extract (OS.plain.with_file [111] (lagging_archive ++ [69, 79, 70])) Globals.start
        [111] [100, 115, 116]).map ExtractResult.outcome =
      .ok (TCF_OK, [Event.mkdir [100, 115, 116],
                    Event.file [100, 115, 116, 47, 120, 121, 122] []]) ∧
    (tcf_extract (OS.plain.with_file [111]
        (lagging_archive ++ [69, 79, 70] ++ [0, 0, 0, 0, 1, 0, 0, 0])) Globals.start
        [111] [100, 115, 116]).map ExtractResult.outcome =
      .ok (TCF_OK, [Event.mkdir [100, 115, 116],
                    Event.file [100, 115, 116, 47, 120, 121, 122] [65]]) ∧
    lagging_archive.length = 18 + 1 + (2 + 2 + 8) + (2 + 1 + 8) := by
  refine ⟨by decide!, by decide!, by decide!⟩

/-! ## What every walk and every pack does to the catalog -/

theorem add_entry_shape (os : OS) (g g1 : Globals) (path : List Nat) (size : Nat)
    (h : add_entry os g path size = .ok g1) :
    g.extends_by g1 [{ path := path, offset := 0, size := size }] := by
  unfold add_entry at h
  simp only at h
  split_ifs at h <;>
    (simp only [Except.ok.injEq] at h; subst h; exact ⟨rfl, rfl, rfl, rfl⟩)

theorem walk_loop_extends (os : OS) (recurse : List Nat → Globals → Except Abort Globals)
    (hrec : ∀ rel g g1, recurse rel g = .ok g1 →
      ∃ es, g.extends_by g1 es ∧ ∀ e ∈ es, walked_entry e)
    (base rel : List Nat) :
    ∀ (names : List (List Nat)) (g g1 : Globals),
      walk_loop os recurse base rel names g = .ok g1 →
      ∃ es, g.extends_by g1 es ∧ ∀ e ∈ es, walked_entry e := by
  intro names
  induction names with
  | nil =>
    intro g g1 h
    simp only [walk_loop, Except.ok.injEq] at h
    subst h
    exact ⟨[], extends_by_refl g, by simp⟩
  | cons n more ih =>
    intro g g1 h
    unfold walk_loop at h
    split at h
    · exact ih g g1 h
    · simp only at h
      split at h
      · exact ih g g1 h
      · split at h
        · simp at h
        · rename_i g2 hg2
          obtain ⟨es1, h1, hw1⟩ := hrec _ _ _ hg2
          obtain ⟨es2, h2, hw2⟩ := ih g2 g1 h
          refine ⟨es1 ++ es2, extends_by_trans g g2 g1 _ _ h1 h2, ?_⟩
          intro e he
          rcases List.mem_append.mp he with he | he
          · exact hw1 e he
          · exact hw2 e he
      · split at h
        · simp at h
        · rename_i st_size _ g2 hg2
          have h1 := add_entry_shape os g g2 _ _ hg2
          obtain ⟨es2, h2, hw2⟩ := ih g2 g1 h
          refine ⟨_ :: es2, extends_by_trans g g2 g1 _ _ h1 h2, ?_⟩
          intro e he
          rcases List.mem_cons.mp he with he | he
          · subst he
            refine ⟨?_, rfl, Nat.mod_lt _ (by decide)⟩
            simp only [snprintf, List.length_take]
            omega
          · exact hw2 e he
      · exact ih g g1 h

/-- Every walk appends entries to the catalog and touches nothing else. -/
theorem walk_dir_extends (os : OS) (fuel : Nat) :
    ∀ (base rel : List Nat) (g g1 : Globals), walk_dir os fuel base rel g = .ok g1 →
      ∃ es, g.extends_by g1 es ∧ ∀ e ∈ es, walked_entry e := by
  induction fuel with
  | zero => intro base rel g g1 h; simp [walk_dir] at h
  | succ fuel ih =>
    intro base rel g g1 h
    unfold walk_dir at h
    simp only at h
    split at h
    · simp only [Except.ok.injEq] at h
      subst h
      exact ⟨[], extends_by_refl g, by simp⟩
    · exact walk_loop_extends os _ (fun rel g g1 h => ih base rel g g1 h) base rel _ g g1 h

theorem with_offsets_paths (es : List tcf_entry) :
    ∀ off, (with_offsets es off).map (fun e => (e.path, e.size)) =
      es.map (fun e => (e.path, e.size)) := by
  induction es with
  | nil => intro off; rfl
  | cons e rest ih => intro off; simp [with_offsets, ih]

theorem with_offsets_mem (es : List tcf_entry) :
    ∀ off e, e ∈ with_offsets es off → ∃ e0 ∈ es, e.path = e0.path ∧ e.size = e0.size := by
  induction es with
  | nil => intro off e h; simp [with_offsets] at h
  | cons e0 rest ih =>
    intro off e h
    simp only [with_offsets, List.mem_cons] at h
    rcases h with h | h
    · subst h; exact ⟨e0, by simp, rfl, rfl⟩
    · obtain ⟨e1, h1, h2⟩ := ih _ _ h
      exact ⟨e1, by simp [h1], h2⟩

/-- The offsets assigned from `off` on: entry `i` gets `off` plus the sizes of
the entries before it, as a `uint32_t`. -/
theorem with_offsets_offset (es : List tcf_entry) :
    ∀ (off i : Nat) (h : i < (with_offsets es off).length),
      ((with_offsets es off).get ⟨i, h⟩).offset =
        if i = 0 then off
        else (off + (((with_offsets es off).take i).map fun e => e.size).sum) % 2 ^ 32 := by
  induction es with
  | nil => intro off i h; simp [with_offsets] at h
  | cons e rest ih =>
    intro off i h
    cases i with
    | zero => simp [with_offsets]
    | succ i =>
      simp only [with_offsets, List.get_cons_succ, List.take_succ_cons, List.map_cons,
        List.sum_cons, Nat.succ_ne_zero, if_false]
      have h' : i < (with_offsets rest ((off + e.size) % 2 ^ 32)).length := by
        simpa [with_offsets] using h
      have := ih ((off + e.size) % 2 ^ 32) i h'
      rw [this]
      by_cases hi : i = 0
      · subst hi; simp
      · simp only [hi, if_false]
        generalize (List.map (fun e => e.size)
          (List.take i (with_offsets rest ((off + e.size) % 2 ^ 32)))).sum = total
        omega

/-- The first loop of `tcf_pack`, when every source opens: the offsets are
assigned in order and the output is the contents read, each through `table`. -/
theorem pack_files_shape (os : OS) (table dir : List Nat) (es : List tcf_entry) :
    ∀ (off : Nat) (es1 : List tcf_entry) (payload : List Nat),
      pack_files os table dir es off = .ok (true, es1, payload) →
      es1 = with_offsets es off ∧
      ∃ contents,
        List.Forall₂ (fun e c => os.fopen_rb (snprintf (dir ++ [47] ++ e.path)) = some c)
          es1 contents ∧
        payload = (contents.map fun c => c.map (lookup table)).flatten := by
  induction es with
  | nil =>
    intro off es1 payload h
    simp only [pack_files, Except.ok.injEq, Prod.mk.injEq, true_and] at h
    obtain ⟨h1, h2⟩ := h
    subst h1 h2
    exact ⟨rfl, [], List.Forall₂.nil, rfl⟩
  | cons e rest ih =>
    intro off es1 payload h
    unfold pack_files at h
    simp only at h
    split at h
    · simp at h
    · rename_i content hc
      rw [pack_chunks_eq table _ _ (le_refl _)] at h
      simp only at h
      split at h
      · simp at h
      · rename_i ok es2 out hrest
        simp only [Except.ok.injEq, Prod.mk.injEq] at h
        obtain ⟨hok, h1, h2⟩ := h
        subst hok h1 h2
        obtain ⟨he, contents, hf, hp⟩ := ih _ _ _ hrest
        subst he hp
        refine ⟨rfl, content :: contents, List.Forall₂.cons hc hf, ?_⟩
        simp

/-! ## The layout of every archive `tcf_pack` writes -/

/-- A successful `tcf_pack`: the catalog it leaves, the contents it read and
the archive it wrote. -/
theorem tcf_pack_layout (os : OS) (fuel : Nat) (g : Globals) (input_dir out_path : List Nat)
    (r : PackResult) (h : tcf_pack os fuel g input_dir out_path = .ok r)
    (hs : r.status = TCF_OK) :
    ∃ es contents,
      (∀ e ∈ es, walked_entry e) ∧
      r.globals.entries = with_offsets (g.entries ++ es) 0 ∧
      r.globals.shift_table = (init_tables g).shift_table ∧
      r.globals.unshift_table = (init_tables g).unshift_table ∧
      r.globals.tables_initialized = (init_tables g).tables_initialized ∧
      List.Forall₂ (fun e c => os.fopen_rb (snprintf (input_dir ++ [47] ++ e.path)) = some c)
        r.globals.entries contents ∧
      r.out = some
        (make_header
            ((18 + (contents.map fun c => c.map (lookup (init_tables g).shift_table)).flatten.length)
              % 2 ^ 32)
            r.globals.entries.length ++
          (contents.map fun c => c.map (lookup (init_tables g).shift_table)).flatten ++
          (r.globals.entries.map index_record).flatten ++ [69, 79, 70]) := by
  obtain ⟨g2, payload, hwalk, _, hfiles, hglob, hout⟩ :=
    tcf_pack_ok_shape os fuel g input_dir out_path r h hs
  obtain ⟨es, ⟨ht1, ht2, ht3, hent⟩, hw⟩ := walk_dir_extends os fuel _ _ _ _ hwalk
  obtain ⟨he, contents, hread, hp⟩ := pack_files_shape os _ _ _ _ _ _ hfiles
  rw [init_tables_entries] at hent
  refine ⟨es, contents, hw, ?_, ?_, ?_, ?_, hread, ?_⟩
  · rw [he, hent]
  · rw [hglob]; exact ht1
  · rw [hglob]; exact ht2
  · rw [hglob]; exact ht3
  · rw [hout, hp, ht1]

theorem index_record_eq_spec (e : tcf_entry) (h : e.path.length < 2 ^ 16) :
    index_record e = index_record_spec e := by
  unfold index_record index_record_spec
  simp only [Nat.mod_eq_of_lt h, List.take_length, put_u16_eq_spec, put_u32_eq_spec]

theorem forall₂_mem_right {α β : Type} (R : α → β → Prop) (l1 : List α) (l2 : List β)
    (h : List.Forall₂ R l1 l2) : ∀ c ∈ l2, ∃ e ∈ l1, R e c := by
  induction h with
  | nil => intro c hc; simp at hc
  | cons hr _ ih =>
    intro c hc
    rcases List.mem_cons.mp hc with hc | hc
    · subst hc; exact ⟨_, by simp, hr⟩
    · obtain ⟨e, he, hre⟩ := ih c hc
      exact ⟨e, by simp [he], hre⟩

theorem le32_spec_append (h rest : List Nat) (i : Nat) (hi : i + 3 < h.length) :
    le32_spec (h ++ rest) i = le32_spec h i := by
  unfold le32_spec
  rw [List.getD_append _ _ _ _ (by omega), List.getD_append _ _ _ _ (by omega),
    List.getD_append _ _ _ _ (by omega), List.getD_append _ _ _ _ (by omega)]

theorem le32_make_header_index_offset (io n : Nat) (hio : io < 2 ^ 32) (rest : List Nat) :
    le32_spec (make_header io n ++ rest) 6 = io := by
  rw [le32_spec_append _ _ _ (by rw [make_header_length]; omega),
    ← get_u32_eq_spec _ (make_header_lt io n)]
  have := make_header_index_offset io n hio []
  rwa [List.append_nil] at this

theorem le32_make_header_count (io n : Nat) (rest : List Nat) :
    le32_spec (make_header io n ++ rest) 10 = n % 2 ^ 32 := by
  rw [le32_spec_append _ _ _ (by rw [make_header_length]; omega),
    ← get_u32_eq_spec _ (make_header_lt io n)]
  have := make_header_count io n []
  rwa [List.append_nil] at this

theorem forall₂_sizes_sum (es : List tcf_entry) (contents : List (List Nat))
    (h : List.Forall₂ (fun e c => e.size = c.length) es contents) :
    (contents.map fun c => c.length).sum = (es.map fun e => e.size).sum := by
  induction h with
  | nil => rfl
  | cons hr _ ih => simp only [List.map_cons, List.sum_cons, ih, hr]

theorem flatten_map_length (contents : List (List Nat)) (f : Nat → Nat) :
    (contents.map fun c => c.map f).flatten.length = (contents.map fun c => c.length).sum := by
  induction contents with
  | nil => rfl
  | cons c rest ih =>
    simp only [List.map_cons, List.flatten_cons, List.length_append, List.length_map,
      List.sum_cons, ih]

/-! ## Layout and offsets -/

/-- C11. Archive layout: after a successful `tcf_pack` the bytes of the
archive behind the 18-byte header are the contents read for the catalog
entries, in catalog order and each mapped bytewise through the forward cipher
(the rotation left by 2), then one record per entry in the same order (2-byte
little-endian path length, path bytes, 4-byte little-endian offset, 4-byte
little-endian size), then "EOF". -/
theorem C11_archive_layout (os : OS) (fuel : Nat) (g : Globals)
    (input_dir out_path : List Nat) (r : PackResult) (archive : List Nat)
    (hg : TablesOK g) (hcat : CatalogOK g)
    (hbytes : ∀ p c, os.fopen_rb p = some c → ∀ b ∈ c, b < 256)
    (h : tcf_pack os fuel g input_dir out_path = .ok r) (hs : r.status = TCF_OK)
    (hout : r.out = some archive) :
    ∃ contents,
      List.Forall₂ (fun e c => os.fopen_rb (snprintf (input_dir ++ [47] ++ e.path)) = some c)
        r.globals.entries contents ∧
      archive.drop 18 =
        (contents.map fun c => c.map fun b => rotl8_spec b 2).flatten ++
          (r.globals.entries.map index_record_spec).flatten ++ [69, 79, 70] := by
  obtain ⟨es, contents, hw, hent, _, _, _, hread, hout2⟩ :=
    tcf_pack_layout os fuel g input_dir out_path r h hs
  rw [hout2] at hout
  simp only [Option.some.injEq] at hout
  subst hout
  refine ⟨contents, hread, ?_⟩
  simp only [List.append_assoc]
  rw [List.drop_left' (make_header_length _ _)]
  have hpay : (contents.map fun c => c.map (lookup (init_tables g).shift_table)) =
      contents.map fun c => c.map fun b => rotl8_spec b 2 := by
    apply List.map_congr_left
    intro c hc
    apply List.map_congr_left
    intro b hb
    obtain ⟨e, _, hre⟩ := forall₂_mem_right _ _ _ hread c hc
    have hb256 : b < 256 := hbytes _ c hre b hb
    rw [lookup_shift g hg b hb256]
    exact shift_value_spec b hb256
  have hidx : r.globals.entries.map index_record = r.globals.entries.map index_record_spec := by
    apply List.map_congr_left
    intro e he
    apply index_record_eq_spec
    rw [hent] at he
    obtain ⟨e0, he0, hp, _⟩ := with_offsets_mem _ _ _ he
    rw [hp]
    rcases List.mem_append.mp he0 with h1 | h1
    · have := hcat e0 h1; omega
    · have := (hw e0 h1).1; omega
  rw [hpay, hidx]

/-- C12, amended. Offset integrity: after a successful `tcf_pack` the offset
recorded for entry `i` is the sum of the sizes of the entries before it
modulo 2^32 (0 for the first entry); when every recorded size is the length of
the content read and 18 plus the sum of the sizes is below 2^32, the payload
length is that sum and the index offset in the header is 18 plus that sum. -/
theorem C12_offset_integrity (os : OS) (fuel : Nat) (g : Globals)
    (input_dir out_path : List Nat) (r : PackResult) (archive : List Nat)
    (h : tcf_pack os fuel g input_dir out_path = .ok r) (hs : r.status = TCF_OK)
    (hout : r.out = some archive) :
    ∃ payload contents,
      archive = archive.take 18 ++ payload ++ (r.globals.entries.map index_record).flatten ++
        [69, 79, 70] ∧
      List.Forall₂ (fun e c => os.fopen_rb (snprintf (input_dir ++ [47] ++ e.path)) = some c)
        r.globals.entries contents ∧
      (∀ (i : Nat) (hi : i < r.globals.entries.length),
        (r.globals.entries.get ⟨i, hi⟩).offset =
          ((r.globals.entries.take i).map fun e => e.size).sum % 2 ^ 32) ∧
      (List.Forall₂ (fun e c => e.size = c.length) r.globals.entries contents →
        18 + (r.globals.entries.map fun e => e.size).sum < 2 ^ 32 →
        payload.length = (r.globals.entries.map fun e => e.size).sum ∧
        le32_spec archive 6 = 18 + (r.globals.entries.map fun e => e.size).sum) := by
  obtain ⟨es, contents, hw, hent, _, _, _, hread, hout2⟩ :=
    tcf_pack_layout os fuel g input_dir out_path r h hs
  rw [hout2] at hout
  simp only [Option.some.injEq] at hout
  subst hout
  refine ⟨(contents.map fun c => c.map (lookup (init_tables g).shift_table)).flatten, contents,
    ?_, hread, ?_, ?_⟩
  · simp only [List.append_assoc]
    rw [List.take_append_of_le_length (by rw [make_header_length]),
      List.take_of_length_le (by rw [make_header_length])]
  · intro i hi
    have hlen : i < (with_offsets (g.entries ++ es) 0).length := by rw [← hent]; exact hi
    have hoff := with_offsets_offset (g.entries ++ es) 0 i hlen
    have hget : (r.globals.entries.get ⟨i, hi⟩).offset =
        ((with_offsets (g.entries ++ es) 0).get ⟨i, hlen⟩).offset := by
      congr 1
      simp only [List.get_eq_getElem, hent]
    rw [hget, hoff, hent]
    by_cases h0 : i = 0
    · subst h0; simp
    · simp only [h0, if_false, Nat.zero_add]
  · intro hsz hsum
    have hl := flatten_map_length contents (lookup (init_tables g).shift_table)
    have hs2 := forall₂_sizes_sum _ _ hsz
    refine ⟨by rw [hl, hs2], ?_⟩
    simp only [List.append_assoc]
    rw [le32_make_header_index_offset _ _ (Nat.mod_lt _ (by decide)), hl, hs2]
    exact Nat.mod_eq_of_lt hsum

/-! ## Files of a mounted tree -/

theorem child_wf : ∀ (f : Forest) (n : List Nat) (t : Tree),
    f.WF → f.child n = some t → t.WF
  | Forest.nil, _, _, _, h => by simp [Forest.child] at h
  | Forest.cons m u more, n, t, hwf, h => by
    obtain ⟨_, _, hu, hmore⟩ := hwf
    unfold Forest.child at h
    by_cases hm : m = n
    · rw [if_pos hm] at h
      simp only [Option.some.injEq] at h
      subst h
      exact hu
    · rw [if_neg hm] at h
      exact child_wf more n t hmore h

theorem find_wf : ∀ (comps : List (List Nat)) (t u : Tree),
    t.WF → t.find comps = some u → u.WF
  | [], t, u, hwf, h => by
    simp only [Tree.find, Option.some.injEq] at h
    subst h
    exact hwf
  | c :: cs, Tree.file _, u, _, h => by simp [Tree.find] at h
  | c :: cs, Tree.dir ch, u, hwf, h => by
    simp only [Tree.find] at h
    cases hc : ch.child c with
    | none => simp [hc] at h
    | some t =>
      simp only [hc] at h
      exact find_wf cs t u (child_wf ch c t hwf hc) h

/-- Whatever is read from a mounted well-formed tree is a list of bytes. -/
theorem mount_bytes (os0 : OS) (base : List Nat) (root : Tree) (hwf : root.WF) :
    ∀ p c, (mount os0 base root).fopen_rb p = some c → ∀ b ∈ c, b < 256 := by
  intro p c h b hb
  rw [mount_fopen_rb] at h
  cases hat : root.at_path base p with
  | none => simp [hat] at h
  | some t =>
    have htwf : t.WF := by
      unfold Tree.at_path at hat
      split at hat
      · exact find_wf _ root t hwf hat
      · cases hat
    cases t with
    | dir ch =>
      simp only [hat, Option.some.injEq] at h
      subst h
      simp at hb
    | file content =>
      simp only [hat, Option.some.injEq] at h
      subst h
      exact htwf b hb

/-- The run of `tcf_pack` on a mounted tree, from an empty catalog. -/
theorem pack_tree (os0 : OS) (g : Globals) (fuel : Nat) (base out_path : List Nat) (top : Forest)
    (hcat : g.entries = []) (hwf : top.WF) (hfuel : top.depth < fuel)
    (hfit : ∀ p ∈ (Tree.dir top).paths [], (base ++ [47] ++ p).length ≤ 1023)
    (halloc : ∀ n, os0.alloc n = true) (hopen : os0.fopen_wb [] out_path = true)
    (hout : (Tree.dir top).holds base out_path = false) :
    ∃ g2 : Globals, g2.shift_table = (init_tables g).shift_table ∧
      tcf_pack (mount os0 base (Tree.dir top)) fuel g base out_path =
        .ok { status := TCF_OK
              globals := { g2 with entries := with_offsets ((top.files []).map entry_of) 0 }
              out := some (make_header
                ((18 + (payload_of g2.shift_table (top.files [])).length) % 2 ^ 32)
                (top.files []).length ++ payload_of g2.shift_table (top.files []) ++
                ((with_offsets ((top.files []).map entry_of) 0).map index_record).flatten ++
                [69, 79, 70]) } := by
  obtain ⟨g2, hwalk, ht1, _, _, hent⟩ := walk_dir_root os0 base top halloc fuel (init_tables g)
    hwf hfuel hfit
  rw [init_tables_entries, hcat, List.nil_append] at hent
  have hfacts := forest_files_facts base (Tree.dir top) top top [] (by simp) (by simp) rfl
    (fun _ _ h => h) hwf
  rw [rel_of_nil] at hfacts
  have hread : ∀ pc ∈ top.files [],
      (mount os0 base (Tree.dir top)).fopen_rb (snprintf (base ++ [47] ++ pc.1)) = some pc.2 := by
    intro pc hpc
    obtain ⟨h1, _, h3, _⟩ := hfacts pc hpc
    have hs := (snprintf_fits base pc.1 (hfit pc.1 (by
      simp only [Tree.paths, List.mem_cons]; exact Or.inr h3))).1
    rw [hs, mount_fopen_rb, h1]
  exact ⟨g2, ht1, tcf_pack_catalog (mount os0 base (Tree.dir top)) fuel g g2 base out_path
    (top.files []) hwalk hent (by rw [mount_fopen_wb _ _ _ _ _ hout]; exact hopen) hread⟩

set_option maxRecDepth 100000 in
theorem sizes_pack :
    tcf_pack (mount OS.plain [105, 110] (Tree.dir sizes_top)) 1 Globals.start [105, 110]
      [111, 117, 116] = .ok sizes_packed := by
  decide!

theorem scenario_wf : scenario_tree.WF := by
  simp [scenario_tree, scenario_top, Forest.WF, Tree.WF, valid_name, Forest.child]

theorem sizes_wf : (Tree.dir sizes_top).WF := by
  simp [sizes_top, Forest.WF, Tree.WF, valid_name, Forest.child]

/-! ## Two files of 2^31 bytes -/

theorem big_content_length : big_content.length = 2147483648 := List.length_replicate _ _

theorem big_content_bytes : ∀ b ∈ big_content, b < 256 := by
  intro b hb
  rw [List.eq_of_mem_replicate hb]
  decide

theorem big_wf : big_top.WF := by
  simp only [big_top, Forest.WF, Tree.WF, valid_name, Forest.child]
  refine ⟨by decide, rfl, big_content_bytes, by decide, rfl, big_content_bytes,
    by decide, trivial, by decide, trivial⟩

theorem rel_join_nil (n : List Nat) : rel_join [] n = n := by
  simp [rel_join]

theorem big_files :
    big_top.files [] = [([97], big_content), ([98], big_content), ([99], [1])] := by
  have h : big_top.files [] = [(rel_join [] [97], big_content), (rel_join [] [98], big_content),
      (rel_join [] [99], [1])] := by
    simp only [big_top, Forest.files, Tree.files]
    rfl
  rw [h, rel_join_nil, rel_join_nil, rel_join_nil]

theorem entry_of_pair (p c : List Nat) :
    entry_of (p, c) = { path := p, offset := 0, size := c.length % 2 ^ 32 } := rfl

theorem with_offsets_cons (e : tcf_entry) (more : List tcf_entry) (off : Nat) :
    with_offsets (e :: more) off =
      { e with offset := off } :: with_offsets more ((off + e.size) % 2 ^ 32) := rfl

theorem with_offsets_nil (off : Nat) : with_offsets [] off = [] := rfl

theorem big_entries :
    with_offsets ((big_top.files []).map entry_of) 0 =
      [{ path := [97], offset := 0, size := 2147483648 },
       { path := [98], offset := 2147483648, size := 2147483648 },
       { path := [99], offset := 0, size := 1 }] := by
  rw [big_files, List.map_cons, List.map_cons, List.map_cons, List.map_nil, entry_of_pair,
    entry_of_pair, entry_of_pair, big_content_length, with_offsets_cons, with_offsets_cons,
    with_offsets_cons, with_offsets_nil]
  simp only [List.length_cons, List.length_nil]
  norm_num

theorem big_fit : ∀ p ∈ (Tree.dir big_top).paths [], ([105, 110] ++ [47] ++ p).length ≤ 1023 := by
  simp [big_top, Forest.paths, Tree.paths, rel_join]

set_option maxRecDepth 100000 in
/-- C11 at the scenario: behind the header the archive holds the encodings of
"hello" and of 0x00, 0xFF, 0x10, the records of `a.txt` and `sub/b.bin`, then
"EOF". -/
theorem C11_archive_layout_witness :
    ∃ contents,
      List.Forall₂
        (fun e c => scenario_os.fopen_rb (snprintf ([105, 110] ++ [47] ++ e.path)) = some c)
        scenario_packed.globals.entries contents ∧
      scenario_archive.drop 18 =
        (contents.map fun c => c.map fun b => rotl8_spec b 2).flatten ++
          (scenario_packed.globals.entries.map index_record_spec).flatten ++ [69, 79, 70] :=
  C11_archive_layout scenario_os 2 Globals.start [105, 110] [111, 117, 116] scenario_packed
    scenario_archive tablesOK_start (fun _ h => absurd h (List.not_mem_nil _))
    (mount_bytes OS.plain [105, 110] scenario_tree scenario_wf) scenario_pack rfl rfl

/-- C12, amended, at the directory with files of 5, 0 and 12 bytes: the
offsets are 0, 5 and 5, the payload has 17 bytes and the index offset is 35;
in the scenario, with sizes 5 and 3, the header holds the index offset 26 and
the entry count 2. -/
theorem C12_offset_integrity_witness :
    (∃ payload contents,
      sizes_archive = sizes_archive.take 18 ++ payload ++
        (sizes_packed.globals.entries.map index_record).flatten ++ [69, 79, 70] ∧
      List.Forall₂
        (fun e c => (mount OS.plain [105, 110] (Tree.dir sizes_top)).fopen_rb
          (snprintf ([105, 110] ++ [47] ++ e.path)) = some c)
        sizes_packed.globals.entries contents ∧
      (∀ (i : Nat) (hi : i < sizes_packed.globals.entries.length),
        (sizes_packed.globals.entries.get ⟨i, hi⟩).offset =
          ((sizes_packed.globals.entries.take i).map fun e => e.size).sum % 2 ^ 32) ∧
      (List.Forall₂ (fun e c => e.size = c.length) sizes_packed.globals.entries contents →
        18 + (sizes_packed.globals.entries.map fun e => e.size).sum < 2 ^ 32 →
        payload.length = (sizes_packed.globals.entries.map fun e => e.size).sum ∧
        le32_spec sizes_archive 6 = 18 + (sizes_packed.globals.entries.map fun e => e.size).sum)) ∧
    sizes_packed.globals.entries.map (fun e => (e.size, e.offset)) = [(5, 0), (0, 5), (12, 5)] ∧
    (sizes_packed.globals.entries.map fun e => e.size).sum = 17 ∧
    le32_spec sizes_archive 6 = 35 ∧
    scenario_packed.globals.entries.map (fun e => e.size) = [5, 3] ∧
    le32_spec scenario_archive 10 = 2 ∧ le32_spec scenario_archive 6 = 26 :=
  ⟨C12_offset_integrity (mount OS.plain [105, 110] (Tree.dir sizes_top)) 1 Globals.start
      [105, 110] [111, 117, 116] sizes_packed sizes_archive sizes_pack rfl rfl,
    by decide, by decide, by decide, by decide, by decide, by decide⟩

/-- C12 as stated fails on a directory with the files `a` and `b` of 2^31
bytes each followed by `c`: `tcf_pack` succeeds and records the offset 0 for
`c`, while the sizes of the two entries before it add up to 2^32. -/
theorem C12_counterexample :
    ∃ r archive,
      tcf_pack (mount OS.plain [105, 110] (Tree.dir big_top)) 1 Globals.start [105, 110]
        [111, 117, 116] = .ok r ∧
      r.status = TCF_OK ∧ r.out = some archive ∧
      r.globals.entries =
        [{ path := [97], offset := 0, size := 2147483648 },
         { path := [98], offset := 2147483648, size := 2147483648 },
         { path := [99], offset := 0, size := 1 }] ∧
      ¬ ∀ (i : Nat) (hi : i < r.globals.entries.length),
        (r.globals.entries.get ⟨i, hi⟩).offset =
          ((r.globals.entries.take i).map fun e => e.size).sum := by
  obtain ⟨g2, _, hpack⟩ := pack_tree OS.plain Globals.start 1 [105, 110] [111, 117, 116] big_top
    rfl big_wf (by decide) big_fit (fun _ => rfl) (by decide)
    (holds_outside _ _ _ (by decide) (by decide))
  refine ⟨_, _, hpack, rfl, rfl, big_entries, ?_⟩
  intro hall
  have hoff : ∀ (l : List tcf_entry),
      l = [{ path := [97], offset := 0, size := 2147483648 },
           { path := [98], offset := 2147483648, size := 2147483648 },
           { path := [99], offset := 0, size := 1 }] →
      ∀ hi : 2 < l.length, (l.get ⟨2, hi⟩).offset = 0 ∧
        ((l.take 2).map fun e => e.size).sum = 4294967296 := by
    intro l hl hi
    subst hl
    exact ⟨rfl, rfl⟩
  have hlen : 2 < (with_offsets ((big_top.files []).map entry_of) 0).length := by
    rw [big_entries]; decide
  have h2 := hall 2 hlen
  obtain ⟨h3, h4⟩ := hoff _ big_entries hlen
  rw [h3, h4] at h2
  exact absurd h2 (by decide)

/-! ## A directory of 2^32 empty files -/

set_option maxRecDepth 100000 in
/-- C14 fails: the catalog outlives the call.  With `r/in` holding `a.txt`
and `sub/b.bin` and `r/x` holding `c`: a first `tcf_pack` of `r/in` writes 2
entries; a second `tcf_pack` of `r/in` in the same process writes an archive
with entry count 4, the two files listed twice; a second `tcf_pack` of `r/x`
looks for `r/x/a.txt` and returns `TCF_ERR_IO`, while the same call in a
fresh process writes the single entry `c`.  In general the catalog after a
successful call is the catalog before it followed by the entries of the walk. -/
theorem C14_catalog_outlives_call :
    (tcf_pack two_dirs_os 2 Globals.start [114, 47, 105, 110] [111, 49]).map
        PackResult.summary =
      .ok (TCF_OK,
        [{ path := [97, 46, 116, 120, 116], offset := 0, size := 5 },
         { path := [115, 117, 98, 47, 98, 46, 98, 105, 110], offset := 5, size := 3 }],
        some (26, 2)) ∧
    (pack_twice two_dirs_os 2 [114, 47, 105, 110] [114, 47, 105, 110]).map PackResult.summary =
      .ok (TCF_OK,
        [{ path := [97, 46, 116, 120, 116], offset := 0, size := 5 },
         { path := [115, 117, 98, 47, 98, 46, 98, 105, 110], offset := 5, size := 3 },
         { path := [97, 46, 116, 120, 116], offset := 8, size := 5 },
         { path := [115, 117, 98, 47, 98, 46, 98, 105, 110], offset := 13, size := 3 }],
        some (34, 4)) ∧
    (pack_twice two_dirs_os 2 [114, 47, 105, 110] [114, 47, 120]).map PackResult.summary =
      .ok ( TCF_ERR_IO,
        [{ path := [97, 46, 116, 120, 116], offset := 0, size := 5 },
         { path := [115, 117, 98, 47, 98, 46, 98, 105, 110], offset := 5, size := 3 },
         { path := [99], offset := 0, size := 1 }],
        some (0, 0)) ∧
    (tcf_pack two_dirs_os 2 Globals.start [114, 47, 120] [111, 50]).map PackResult.summary =
      .ok (TCF_OK, [{ path := [99], offset := 0, size := 1 }], some (19, 1)) ∧
    (∀ (os : OS) (fuel : Nat) (g : Globals) (input_dir out_path : List Nat) (r : PackResult),
      tcf_pack os fuel g input_dir out_path = .ok r → r.status = TCF_OK →
      ∃ es, r.globals.entries = with_offsets (g.entries ++ es) 0) := by
  refine ⟨by decide!, by decide!, by decide!, by decide!, ?_⟩
  intro os fuel g input_dir out_path r h hs
  obtain ⟨es, _, _, hent, _⟩ := tcf_pack_layout os fuel g input_dir out_path r h hs
  exact ⟨es, hent⟩

end TCF
